import Mathlib

/-!
Verification of the labyru maze library: shape/topology engine and the
Voronoi region initializer.  Rust source is shallowly embedded: matrix
positions are signed integer pairs, f32 geometry is modelled over ℚ using
the literal constants from the source, room wall bitmasks are functions
from wall indices to Bool, and the caller-supplied randomizer is an
explicit stream of rationals / a choice function.
-/

namespace Labyru

/-- A matrix position: a signed (column, row) pair, as matrix::Pos. -/
structure MPos where
  col : Int
  row : Int
deriving DecidableEq

/-- cos(30°), the f32 constant 0.866_025_4 used by the source. -/
def qCos30 : ℚ := 8660254 / 10000000

/-- cos(45°), the f32 constant 0.707_106_77 used by the source. -/
def qCos45 : ℚ := 70710677 / 100000000

/-- A static wall descriptor: per-shape-unique index and the direction
offset to the neighbouring room.  The angular-span geometry of a wall is
kept in the separate table wallSpan0. -/
structure Wall where
  index : Nat
  dir : Int × Int
deriving DecidableEq

/-! Hexagonal wall table, from src/maze/src/shape/hex.rs.  The walls are
arranged in back-to-back pairs, in declaration order LEFT0, RIGHT0, LEFT1,
RIGHT1, UP_LEFT0, DOWN_RIGHT1, UP_LEFT1, DOWN_RIGHT0, UP_RIGHT0,
DOWN_LEFT1, UP_RIGHT1, DOWN_LEFT0. -/

def hexLEFT0 : Wall := ⟨0, (-1, 0)⟩

def hexRIGHT0 : Wall := ⟨1, (1, 0)⟩

def hexLEFT1 : Wall := ⟨2, (-1, 0)⟩

def hexRIGHT1 : Wall := ⟨3, (1, 0)⟩

def hexUP_LEFT0 : Wall := ⟨4, (0, -1)⟩

def hexDOWN_RIGHT1 : Wall := ⟨5, (0, 1)⟩

def hexUP_LEFT1 : Wall := ⟨6, (-1, -1)⟩

def hexDOWN_RIGHT0 : Wall := ⟨7, (1, 1)⟩

def hexUP_RIGHT0 : Wall := ⟨8, (1, -1)⟩

def hexDOWN_LEFT1 : Wall := ⟨9, (-1, 1)⟩

def hexUP_RIGHT1 : Wall := ⟨10, (0, -1)⟩

def hexDOWN_LEFT0 : Wall := ⟨11, (0, 1)⟩

/-- walls::ALL for the hexagonal shape, in index order. -/
def hexALL : List Wall :=
  [hexLEFT0, hexRIGHT0, hexLEFT1, hexRIGHT1, hexUP_LEFT0, hexDOWN_RIGHT1,
   hexUP_LEFT1, hexDOWN_RIGHT0, hexUP_RIGHT0, hexDOWN_LEFT1, hexUP_RIGHT1,
   hexDOWN_LEFT0]

/-- The hex walls for even rows (hex::ALL0). -/
def hexALL0 : List Wall :=
  [hexLEFT0, hexUP_LEFT0, hexUP_RIGHT0, hexRIGHT0, hexDOWN_RIGHT0,
   hexDOWN_LEFT0]

/-- The hex walls for odd rows (hex::ALL1). -/
def hexALL1 : List Wall :=
  [hexLEFT1, hexUP_LEFT1, hexUP_RIGHT1, hexRIGHT1, hexDOWN_RIGHT1,
   hexDOWN_LEFT1]

/-! Quadrilateral wall table.  Modelled from the spec: src/maze/src/shape/quad.rs
is not under src/; the spec gives Quad four walls whose direction offsets
are the four axis neighbours, with the back across each wall being the wall
with the negated direction offset. -/

def quadLEFT : Wall := ⟨0, (-1, 0)⟩

def quadUP : Wall := ⟨1, (0, -1)⟩

def quadRIGHT : Wall := ⟨2, (1, 0)⟩

def quadDOWN : Wall := ⟨3, (0, 1)⟩

/-- walls::ALL for the quadrilateral shape.  Modelled from the spec. -/
def quadALL : List Wall := [quadLEFT, quadUP, quadRIGHT, quadDOWN]

/-! Triangular wall table.  Modelled from the spec: src/maze/src/shape/tri.rs
is not under src/; the spec gives Tri three walls per room, rooms
alternating between upward (left, right, bottom) and downward (left,
right, top) orientation by cell parity, with the wall entries arranged in
back-to-back direction-negating pairs as in the hex table. -/

def triLEFT0 : Wall := ⟨0, (-1, 0)⟩

def triRIGHT1 : Wall := ⟨1, (1, 0)⟩

def triLEFT1 : Wall := ⟨2, (-1, 0)⟩

def triRIGHT0 : Wall := ⟨3, (1, 0)⟩

def triUP : Wall := ⟨4, (0, -1)⟩

def triDOWN : Wall := ⟨5, (0, 1)⟩

/-- walls::ALL for the triangular shape.  Modelled from the spec. -/
def triALL : List Wall := [triLEFT0, triRIGHT1, triLEFT1, triRIGHT0, triUP, triDOWN]

/-- The tri walls for rooms of even (col + row) parity (upward rooms). -/
def triALL0 : List Wall := [triLEFT0, triRIGHT0, triDOWN]

/-- The tri walls for rooms of odd (col + row) parity (downward rooms). -/
def triALL1 : List Wall := [triLEFT1, triRIGHT1, triUP]

/-- The three room topologies (shape::Shape). -/
inductive Shape where
  | tri
  | quad
  | hex
deriving DecidableEq

/-- The full wall table of a shape (all_walls). -/
def allWalls : Shape → List Wall
  | .tri => triALL
  | .quad => quadALL
  | .hex => hexALL

/-- Per-shape back index.  Hex: wall ^ 0b0001 (hex::back_index); tri and
quad are modelled from the spec (direction-negating pairing). -/
def backIndex : Shape → Nat → Nat
  | .hex, i => i ^^^ 1
  | .tri, i => i ^^^ 1
  | .quad, i => (i + 2) % 4

/-- Table lookup walls::ALL[i]; indices used by the source are always in
bounds, the default is never reached there. -/
def wallAt (s : Shape) (i : Nat) : Wall := (allWalls s).getD i hexLEFT0

/-- The cosine/sine pair of the start angle of a wall's span
(wall.span.0.dx, wall.span.0.dy), indexed by shape and wall index.  Hex
values are from src/maze/src/shape/hex.rs (span start angles are
multiples of D = 30°); tri and quad values are modelled from the spec. -/
def wallSpan0 : Shape → Nat → ℚ × ℚ
  | .hex, 0 => (-qCos30, 1/2)
  | .hex, 1 => (qCos30, -(1/2))
  | .hex, 2 => (-qCos30, 1/2)
  | .hex, 3 => (qCos30, -(1/2))
  | .hex, 4 => (-qCos30, -(1/2))
  | .hex, 5 => (qCos30, 1/2)
  | .hex, 6 => (-qCos30, -(1/2))
  | .hex, 7 => (qCos30, 1/2)
  | .hex, 8 => (0, -1)
  | .hex, 9 => (0, 1)
  | .hex, 10 => (0, -1)
  | .hex, 11 => (0, 1)
  | .quad, 0 => (-qCos45, qCos45)
  | .quad, 1 => (-qCos45, -qCos45)
  | .quad, 2 => (qCos45, -qCos45)
  | .quad, 3 => (qCos45, qCos45)
  | .tri, 0 => (0, 1)
  | .tri, 1 => (qCos30, 1/2)
  | .tri, 2 => (-qCos30, 1/2)
  | .tri, 3 => (qCos30, -(1/2))
  | .tri, 4 => (0, -1)
  | .tri, 5 => (-qCos30, -(1/2))
  | _, _ => (0, 0)

/-- Shifting a room position by a wall direction offset. -/
def addDir (p : MPos) (d : Int × Int) : MPos := ⟨p.col + d.1, p.row + d.2⟩

/-- The back of a wall position (define_shape!::back): the room shifted by
the wall's direction offset, the wall replaced by its back index. -/
def back (s : Shape) (wp : MPos × Wall) : MPos × Wall :=
  (addDir wp.1 wp.2.dir, wallAt s (backIndex s wp.2.index))

/-- The wall list of a room (shape walls(pos)): hex rows alternate between
two tables by row parity; tri alternates by (col + row) parity (modelled
from the spec); quad uses one table. -/
def wallsAt : Shape → MPos → List Wall
  | .hex, p => if p.row % 2 = 1 then hexALL1 else hexALL0
  | .quad, _ => quadALL
  | .tri, p => if (p.col + p.row) % 2 = 1 then triALL1 else triALL0

/-- The wall-table sanity facts used throughout: table lookup at a wall's
own index returns the wall, the back index is an involution, the back
wall's direction offset is the negation, and back walls are table walls
with consistent indices. -/
def shapeOK (s : Shape) : Prop :=
  ∀ w ∈ allWalls s,
    wallAt s w.index = w ∧
    (wallAt s (backIndex s w.index)).index = backIndex s w.index ∧
    backIndex s (backIndex s w.index) = w.index ∧
    (wallAt s (backIndex s w.index)).dir = (-w.dir.1, -w.dir.2) ∧
    wallAt s (backIndex s w.index) ∈ allWalls s

theorem shapeOK_all (s : Shape) : shapeOK s := by
  unfold shapeOK
  cases s <;> decide

/-- Taking the back of the back of a table wall returns the original wall
position (helper shared by several developments). -/
theorem back_back_aux (s : Shape) (pos : MPos) (w : Wall) (h : w ∈ allWalls s) :
    back s (back s (pos, w)) = (pos, w) := by
  obtain ⟨hw, hidx, hbb, hdir, _⟩ := shapeOK_all s w h
  have hstep : back s (back s (pos, w)) =
      (addDir (addDir pos w.dir) (wallAt s (backIndex s w.index)).dir,
       wallAt s (backIndex s (wallAt s (backIndex s w.index)).index)) := rfl
  rw [hstep, hidx, hbb, hw, hdir]
  have h1 : addDir (addDir pos w.dir) (-w.dir.1, -w.dir.2) = pos := by
    cases pos with
    | mk c r =>
      simp only [addDir, MPos.mk.injEq]
      omega
  rw [h1]

/-- C1: for every shape and every wall position w, back(back(w)) == w. -/
theorem back_back (s : Shape) (pos : MPos) (w : Wall) (h : w ∈ allWalls s) :
    back s (back s (pos, w)) = (pos, w) :=
  back_back_aux s pos w h

theorem back_back_witness :
    hexUP_LEFT1 ∈ allWalls Shape.hex ∧
      back Shape.hex (back Shape.hex (⟨2, 3⟩, hexUP_LEFT1)) = (⟨2, 3⟩, hexUP_LEFT1) :=
  ⟨by decide, back_back Shape.hex ⟨2, 3⟩ hexUP_LEFT1 (by decide)⟩

/-- The opposite wall (hex::opposite from the source; quad and tri are
modelled from the spec: the diametrically opposite wall for quad, an
absent result for tri).  For hex, the source tests (index & !0b0011) == 0,
which holds exactly when the index is below 4. -/
def opposite : Shape → (MPos × Wall) → Option Wall
  | .hex, wp =>
      some (wallAt .hex
        (if wp.2.index < 4 then wp.2.index ^^^ 1 else wp.2.index ^^^ 3))
  | .quad, wp => some (wallAt .quad ((wp.2.index + 2) % 4))
  | .tri, _ => none

/-- The opposite wall of a wall position does not depend on the room
position, only on the wall (the source reads only wall.index). -/
theorem opposite_pos_irrel (s : Shape) (pos : MPos) (w : Wall) :
    opposite s (pos, w) = opposite s (⟨0, 0⟩, w) := by
  cases s <;> rfl

/-- C5: opposite is absent for every triangular wall; for quadrilateral and
hexagonal walls it is defined and is an involution. -/
theorem opposite_involution (pos : MPos) (w : Wall) :
    opposite .tri (pos, w) = none ∧
    (w ∈ allWalls .quad →
      ∃ w2, opposite .quad (pos, w) = some w2 ∧ opposite .quad (pos, w2) = some w) ∧
    (w ∈ allWalls .hex →
      ∃ w2, opposite .hex (pos, w) = some w2 ∧ opposite .hex (pos, w2) = some w) := by
  refine ⟨rfl, ?_, ?_⟩
  · intro h
    fin_cases h <;> simp only [opposite_pos_irrel] <;> exact ⟨_, rfl, by decide⟩
  · intro h
    fin_cases h <;> simp only [opposite_pos_irrel] <;> exact ⟨_, rfl, by decide⟩

theorem opposite_involution_witness :
    hexUP_LEFT0 ∈ allWalls Shape.hex ∧
      ∃ w2, opposite .hex (⟨0, 0⟩, hexUP_LEFT0) = some w2 ∧
        opposite .hex (⟨0, 0⟩, w2) = some hexUP_LEFT0 :=
  ⟨by decide, (opposite_involution ⟨0, 0⟩ hexUP_LEFT0).2.2 (by decide)⟩

/-- A room's wall state.  room.rs is not under src/; the spec gives Room an
open/closed bitmask over wall indices, modelled as the indicator function
of the set of open wall indices. -/
abbrev RoomBits : Type := Nat → Bool

/-- A dense 2D container keyed by signed column/row (matrix::Matrix):
dimensions plus cell contents; reads of out-of-bounds positions return an
absent result, writes to them are skipped. -/
structure Mat (α : Type) where
  width : Nat
  height : Nat
  cells : MPos → α

/-- matrix::Matrix::is_inside. -/
def Mat.inside {α : Type} (m : Mat α) (p : MPos) : Bool :=
  decide (0 ≤ p.col) && decide (p.col < (m.width : Int)) &&
    decide (0 ≤ p.row) && decide (p.row < (m.height : Int))

/-- matrix::Matrix::get: absent for out-of-bounds positions. -/
def Mat.get {α : Type} (m : Mat α) (p : MPos) : Option α :=
  if m.inside p then some (m.cells p) else none

/-- Mutation through matrix::Matrix::get_mut: a no-op for out-of-bounds
positions. -/
def Mat.modify {α : Type} (m : Mat α) (p : MPos) (f : α → α) : Mat α :=
  if m.inside p then
    { m with cells := Function.update m.cells p (f (m.cells p)) }
  else m

/-- matrix::Matrix::positions: all in-bounds positions in row-major order. -/
def Mat.positionsList {α : Type} (m : Mat α) : List MPos :=
  (List.range m.height).flatMap
    (fun r => (List.range m.width).map (fun c => MPos.mk (Int.ofNat c) (Int.ofNat r)))

theorem Mat.inside_modify {α : Type} (m : Mat α) (p : MPos) (f : α → α) :
    (m.modify p f).inside = m.inside := by
  unfold Mat.modify
  split <;> rfl

theorem Mat.cells_modify {α : Type} (m : Mat α) (p : MPos) (f : α → α) (q : MPos) :
    (m.modify p f).cells q =
      if m.inside p = true ∧ q = p then f (m.cells q) else m.cells q := by
  unfold Mat.modify
  by_cases hin : m.inside p = true
  · rw [if_pos hin]
    by_cases hq : q = p
    · subst hq
      simp [Function.update_same, hin]
    · simp [Function.update_noteq hq, hq]
  · simp only [hin, Bool.false_eq_true, if_false, false_and, if_false]


theorem Mat.mem_positionsList {α : Type} (m : Mat α) (p : MPos) :
    p ∈ m.positionsList ↔ m.inside p = true := by
  unfold Mat.positionsList Mat.inside
  simp only [List.mem_flatMap, List.mem_map, List.mem_range, Bool.and_eq_true,
    decide_eq_true_eq]
  constructor
  · rintro ⟨r, hr, c, hc, rfl⟩
    dsimp only
    simp only [Int.ofNat_eq_natCast]
    refine ⟨⟨⟨?_, ?_⟩, ?_⟩, ?_⟩ <;> omega
  · intro h
    obtain ⟨⟨⟨h1, h2⟩, h3⟩, h4⟩ := h
    refine ⟨p.row.toNat, by omega, p.col.toNat, by omega, ?_⟩
    cases p with
    | mk c r =>
      dsimp only at h1 h2 h3 h4 ⊢
      rw [MPos.mk.injEq]
      simp only [Int.ofNat_eq_natCast]
      constructor <;> omega

/-- The maze aggregate: a shape tag plus a matrix of rooms. -/
structure MazeS where
  shape : Shape
  rooms : Mat RoomBits

/-- Maze::is_open: false when the room is out of bounds (no panic). -/
def MazeS.isOpen (mz : MazeS) (wp : MPos × Wall) : Bool :=
  match mz.rooms.get wp.1 with
  | some r => r wp.2.index
  | none => false

/-- Maze::set_open: first modify the requested wall, then sync the value on
the back; each half is skipped when its room is out of bounds. -/
def MazeS.setOpen (mz : MazeS) (wp : MPos × Wall) (v : Bool) : MazeS :=
  { shape := mz.shape
    rooms :=
      (mz.rooms.modify wp.1 (fun r => Function.update r wp.2.index v)).modify
        (back mz.shape wp).1
        (fun r => Function.update r (back mz.shape wp).2.index v) }

/-- Maze::connected: true for equal positions, else the open state of the
first wall of pos1 whose direction offset leads to pos2, false when there
is no such wall. -/
def MazeS.connected (mz : MazeS) (p1 p2 : MPos) : Bool :=
  if p1 = p2 then true
  else
    match (wallsAt mz.shape p1).find? (fun w => decide (addDir p1 w.dir = p2)) with
    | some w => mz.isOpen (p1, w)
    | none => false

theorem MazeS.shape_setOpen (mz : MazeS) (wp : MPos × Wall) (v : Bool) :
    (mz.setOpen wp v).shape = mz.shape := rfl

theorem MazeS.inside_setOpen (mz : MazeS) (wp : MPos × Wall) (v : Bool) :
    (mz.setOpen wp v).rooms.inside = mz.rooms.inside := by
  unfold MazeS.setOpen
  dsimp only
  rw [Mat.inside_modify, Mat.inside_modify]

theorem MazeS.cells_setOpen (mz : MazeS) (wp : MPos × Wall) (v : Bool) (q : MPos) :
    (mz.setOpen wp v).rooms.cells q =
      (if mz.rooms.inside (back mz.shape wp).1 = true ∧ q = (back mz.shape wp).1
       then Function.update
         (if mz.rooms.inside wp.1 = true ∧ q = wp.1
          then Function.update (mz.rooms.cells q) wp.2.index v
          else mz.rooms.cells q)
         (back mz.shape wp).2.index v
       else (if mz.rooms.inside wp.1 = true ∧ q = wp.1
          then Function.update (mz.rooms.cells q) wp.2.index v
          else mz.rooms.cells q)) := by
  unfold MazeS.setOpen
  dsimp only
  simp only [Mat.cells_modify, Mat.inside_modify]

theorem MazeS.isOpen_eq_cells (mz : MazeS) (q : MPos) (u : Wall)
    (h : mz.rooms.inside q = true) :
    mz.isOpen (q, u) = mz.rooms.cells q u.index := by
  unfold MazeS.isOpen Mat.get
  rw [if_pos h]

theorem MazeS.isOpen_oob (mz : MazeS) (q : MPos) (u : Wall)
    (h : mz.rooms.inside q = false) :
    mz.isOpen (q, u) = false := by
  unfold MazeS.isOpen Mat.get
  rw [if_neg (by rw [h]; exact Bool.false_ne_true)]

/-- set_open writes the requested wall's own bit. -/
theorem MazeS.isOpen_setOpen_self (mz : MazeS) (p : MPos) (w : Wall) (v : Bool)
    (h : mz.rooms.inside p = true) :
    (mz.setOpen (p, w) v).isOpen (p, w) = v := by
  have h2 : (mz.setOpen (p, w) v).rooms.inside p = true := by
    rw [MazeS.inside_setOpen]
    exact h
  rw [MazeS.isOpen_eq_cells _ _ _ h2, MazeS.cells_setOpen]
  by_cases hb : mz.rooms.inside (back mz.shape (p, w)).1 = true ∧
      p = (back mz.shape (p, w)).1
  · rw [if_pos hb, if_pos ⟨h, rfl⟩]
    by_cases hi : w.index = (back mz.shape (p, w)).2.index
    · rw [← hi, Function.update_same]
    · rw [Function.update_noteq hi, Function.update_same]
  · rw [if_neg hb, if_pos ⟨h, rfl⟩, Function.update_same]

/-- set_open writes the back wall's bit in the neighbouring room. -/
theorem MazeS.isOpen_setOpen_back (mz : MazeS) (p : MPos) (w : Wall) (v : Bool)
    (h : mz.rooms.inside (back mz.shape (p, w)).1 = true) :
    (mz.setOpen (p, w) v).isOpen (back mz.shape (p, w)) = v := by
  have h2 : (mz.setOpen (p, w) v).rooms.inside (back mz.shape (p, w)).1 = true := by
    rw [MazeS.inside_setOpen]
    exact h
  have hpair : back mz.shape (p, w) =
      ((back mz.shape (p, w)).1, (back mz.shape (p, w)).2) := rfl
  rw [hpair, MazeS.isOpen_eq_cells _ _ _ h2, MazeS.cells_setOpen,
    if_pos ⟨h, rfl⟩, Function.update_same]

/-- set_open leaves every wall bit other than the two written ones
untouched. -/
theorem MazeS.isOpen_setOpen_other (mz : MazeS) (p : MPos) (w : Wall) (v : Bool)
    (q : MPos) (u : Wall)
    (hn1 : ¬(q = p ∧ u.index = w.index))
    (hn2 : ¬(mz.rooms.inside (back mz.shape (p, w)).1 = true ∧
      q = (back mz.shape (p, w)).1 ∧ u.index = (back mz.shape (p, w)).2.index)) :
    (mz.setOpen (p, w) v).isOpen (q, u) = mz.isOpen (q, u) := by
  by_cases hq : mz.rooms.inside q = true
  · have hq2 : (mz.setOpen (p, w) v).rooms.inside q = true := by
      rw [MazeS.inside_setOpen]
      exact hq
    rw [MazeS.isOpen_eq_cells _ _ _ hq2, MazeS.isOpen_eq_cells _ _ _ hq,
      MazeS.cells_setOpen]
    have hinner :
        (if mz.rooms.inside (p, w).1 = true ∧ q = (p, w).1
         then Function.update (mz.rooms.cells q) (p, w).2.index v
         else mz.rooms.cells q) u.index = mz.rooms.cells q u.index := by
      by_cases hqp : mz.rooms.inside (p, w).1 = true ∧ q = (p, w).1
      · rw [if_pos hqp]
        have hui : ¬u.index = (p, w).2.index := fun hc => hn1 ⟨hqp.2, hc⟩
        rw [Function.update_noteq hui]
      · rw [if_neg hqp]
    by_cases hqb : mz.rooms.inside (back mz.shape (p, w)).1 = true ∧
        q = (back mz.shape (p, w)).1
    · rw [if_pos hqb]
      have hui : ¬u.index = (back mz.shape (p, w)).2.index :=
        fun hc => hn2 ⟨hqb.1, hqb.2, hc⟩
      rw [Function.update_noteq hui]
      exact hinner
    · rw [if_neg hqb]
      exact hinner
  · have hq' : mz.rooms.inside q = false := by
      revert hq
      cases mz.rooms.inside q <;> simp
    have hq2 : (mz.setOpen (p, w) v).rooms.inside q = false := by
      rw [MazeS.inside_setOpen]
      exact hq'
    rw [MazeS.isOpen_oob _ _ _ hq2, MazeS.isOpen_oob _ _ _ hq']

/-- C3: for a wall whose room and neighbouring room are both inside the
maze, set_open(w, v) makes both is_open(w) and is_open(back(w)) equal v as
one logical update; when the neighbouring room is out of bounds, only the
near side is set and the missing side is silently skipped. -/
theorem setOpen_sync (mz : MazeS) (p : MPos) (w : Wall) (v : Bool)
    (hin : mz.rooms.inside p = true) :
    (mz.rooms.inside (back mz.shape (p, w)).1 = true →
      (mz.setOpen (p, w) v).isOpen (p, w) = v ∧
      (mz.setOpen (p, w) v).isOpen (back mz.shape (p, w)) = v) ∧
    (mz.rooms.inside (back mz.shape (p, w)).1 = false →
      (mz.setOpen (p, w) v).isOpen (p, w) = v ∧
      ∀ q u, ¬(q = p ∧ u.index = w.index) →
        (mz.setOpen (p, w) v).isOpen (q, u) = mz.isOpen (q, u)) := by
  constructor
  · intro hb
    exact ⟨MazeS.isOpen_setOpen_self mz p w v hin,
      MazeS.isOpen_setOpen_back mz p w v hb⟩
  · intro hb
    refine ⟨MazeS.isOpen_setOpen_self mz p w v hin, ?_⟩
    intro q u hqu
    refine MazeS.isOpen_setOpen_other mz p w v q u hqu ?_
    intro hc
    rw [hb] at hc
    exact Bool.false_ne_true hc.1

theorem setOpen_sync_witness :
    (MazeS.mk Shape.hex ⟨3, 3, fun _ => fun _ => false⟩).rooms.inside ⟨1, 1⟩ = true ∧
      ((MazeS.mk Shape.hex ⟨3, 3, fun _ => fun _ => false⟩).rooms.inside
          (back Shape.hex (⟨1, 1⟩, hexRIGHT1)).1 = true →
        ((MazeS.mk Shape.hex ⟨3, 3, fun _ => fun _ => false⟩).setOpen
            (⟨1, 1⟩, hexRIGHT1) true).isOpen (⟨1, 1⟩, hexRIGHT1) = true ∧
        ((MazeS.mk Shape.hex ⟨3, 3, fun _ => fun _ => false⟩).setOpen
            (⟨1, 1⟩, hexRIGHT1) true).isOpen
          (back Shape.hex (⟨1, 1⟩, hexRIGHT1)) = true) :=
  ⟨by decide,
   (setOpen_sync (MazeS.mk Shape.hex ⟨3, 3, fun _ => fun _ => false⟩)
      ⟨1, 1⟩ hexRIGHT1 true (by decide)).1⟩

/-- Within each room's wall list the direction offsets are pairwise
distinct, so at most one wall of a room leads to a given neighbour. -/
theorem wallsAt_dirs_nodup (s : Shape) (p : MPos) :
    ((wallsAt s p).map Wall.dir).Nodup := by
  cases s with
  | hex =>
    show ((if p.row % 2 = 1 then hexALL1 else hexALL0).map Wall.dir).Nodup
    split <;> decide
  | quad =>
    show ((quadALL).map Wall.dir).Nodup
    decide
  | tri =>
    show ((if (p.col + p.row) % 2 = 1 then triALL1 else triALL0).map Wall.dir).Nodup
    split <;> decide

theorem addDir_inj (p : MPos) (d d2 : Int × Int) (h : addDir p d = addDir p d2) :
    d = d2 := by
  cases d with
  | mk a b =>
    cases d2 with
    | mk a2 b2 =>
      rw [addDir, addDir, MPos.mk.injEq] at h
      rw [Prod.mk.injEq]
      omega

/-- C4: connected(pos1, pos2) is true when pos1 == pos2, and otherwise true
exactly when some wall of pos1 has a direction offset mapping pos1 to pos2
and that wall is open in pos1's room; with no such adjacency it is false. -/
theorem connected_characterization (mz : MazeS) (p1 p2 : MPos) :
    mz.connected p1 p2 = true ↔
      (p1 = p2 ∨ ∃ w, w ∈ wallsAt mz.shape p1 ∧ addDir p1 w.dir = p2 ∧
        mz.isOpen (p1, w) = true) := by
  unfold MazeS.connected
  by_cases h12 : p1 = p2
  · rw [if_pos h12]
    simp [h12]
  · rw [if_neg h12]
    cases hfind : (wallsAt mz.shape p1).find? (fun w => decide (addDir p1 w.dir = p2)) with
    | none =>
      show (false : Bool) = true ↔ _
      constructor
      · intro hc
        exact absurd hc (by simp)
      · rintro (hc | ⟨w, hw, hdir, hopen⟩)
        · exact absurd hc h12
        · have hnone := List.find?_eq_none.mp hfind w hw
          rw [decide_eq_true_eq] at hnone
          exact absurd hdir hnone
    | some w =>
      show mz.isOpen (p1, w) = true ↔ _
      have hmem := List.mem_of_find?_eq_some hfind
      have hpred := List.find?_some hfind
      rw [decide_eq_true_eq] at hpred
      constructor
      · intro hopen
        exact Or.inr ⟨w, hmem, hpred, hopen⟩
      · rintro (hc | ⟨w2, hw2, hdir2, hopen2⟩)
        · exact absurd hc h12
        · have hw2w : w2 = w := by
            refine List.inj_on_of_nodup_map (wallsAt_dirs_nodup mz.shape p1) hw2 hmem ?_
            exact addDir_inj p1 w2.dir w.dir (by rw [hdir2, hpred])
          rw [← hw2w]
          exact hopen2

theorem addDir_neg_cancel (p : MPos) (d : Int × Int) :
    addDir (addDir p d) (-d.1, -d.2) = p := by
  cases p with
  | mk c r =>
    rw [addDir, addDir, MPos.mk.injEq]
    dsimp only
    omega

theorem addDir_neg_cancel2 (p : MPos) (d : Int × Int) :
    addDir (addDir p (-d.1, -d.2)) d = p := by
  cases p with
  | mk c r =>
    rw [addDir, addDir, MPos.mk.injEq]
    dsimp only
    omega

theorem addDir_left_cancel (p q : MPos) (d : Int × Int)
    (h : addDir p d = addDir q d) : p = q := by
  cases p with
  | mk c r =>
    cases q with
    | mk c2 r2 =>
      rw [addDir, addDir, MPos.mk.injEq] at h
      rw [MPos.mk.injEq]
      dsimp only at h
      omega

/-- Every wall of a room is a wall of the shape's full table. -/
theorem wallsAt_sub_allWalls (s : Shape) (p : MPos) (w : Wall)
    (h : w ∈ wallsAt s p) : w ∈ allWalls s := by
  cases s with
  | hex =>
    have h2 : w ∈ (if p.row % 2 = 1 then hexALL1 else hexALL0) := h
    by_cases hp : p.row % 2 = 1
    · rw [if_pos hp] at h2
      fin_cases h2 <;> decide
    · rw [if_neg hp] at h2
      fin_cases h2 <;> decide
  | quad => exact h
  | tri =>
    have h2 : w ∈ (if (p.col + p.row) % 2 = 1 then triALL1 else triALL0) := h
    by_cases hp : (p.col + p.row) % 2 = 1
    · rw [if_pos hp] at h2
      fin_cases h2 <;> decide
    · rw [if_neg hp] at h2
      fin_cases h2 <;> decide

/-- The back of a wall of a room is a wall of the neighbouring room: the
per-parity wall tables are consistent with the direction offsets. -/
theorem mem_wallsAt_back (s : Shape) (p : MPos) (w : Wall)
    (h : w ∈ wallsAt s p) :
    (back s (p, w)).2 ∈ wallsAt s (addDir p w.dir) := by
  cases s with
  | hex =>
    have h2 : w ∈ (if p.row % 2 = 1 then hexALL1 else hexALL0) := h
    by_cases hp : p.row % 2 = 1 <;>
      [rw [if_pos hp] at h2; rw [if_neg hp] at h2] <;>
      fin_cases h2 <;>
      simp only [back, addDir, wallsAt, hexLEFT0, hexRIGHT0, hexLEFT1, hexRIGHT1,
        hexUP_LEFT0, hexDOWN_RIGHT1, hexUP_LEFT1, hexDOWN_RIGHT0, hexUP_RIGHT0,
        hexDOWN_LEFT1, hexUP_RIGHT1, hexDOWN_LEFT0] <;>
      first
        | (rw [if_pos (by omega)]; decide)
        | (rw [if_neg (by omega)]; decide)
  | quad =>
    fin_cases h <;>
      simp only [back, addDir, wallsAt, quadLEFT, quadUP, quadRIGHT, quadDOWN] <;>
      decide
  | tri =>
    have h2 : w ∈ (if (p.col + p.row) % 2 = 1 then triALL1 else triALL0) := h
    by_cases hp : (p.col + p.row) % 2 = 1 <;>
      [rw [if_pos hp] at h2; rw [if_neg hp] at h2] <;>
      fin_cases h2 <;>
      simp only [back, addDir, wallsAt, triLEFT0, triRIGHT1, triLEFT1, triRIGHT0,
        triUP, triDOWN] <;>
      first
        | (rw [if_pos (by omega)]; decide)
        | (rw [if_neg (by omega)]; decide)

/-- A freshly constructed maze: all rooms closed. -/
def freshMaze (s : Shape) (w h : Nat) : MazeS :=
  ⟨s, ⟨w, h, fun _ => fun _ => false⟩⟩

theorem isOpen_freshMaze (s : Shape) (w h : Nat) (wp : MPos × Wall) :
    (freshMaze s w h).isOpen wp = false := by
  have hpair : wp = (wp.1, wp.2) := rfl
  rw [hpair]
  by_cases hin : (freshMaze s w h).rooms.inside wp.1 = true
  · rw [MazeS.isOpen_eq_cells _ _ _ hin]
    rfl
  · rw [MazeS.isOpen_oob _ _ _ ?_]
    revert hin
    cases (freshMaze s w h).rooms.inside wp.1 <;> simp

/-- The two-sided wall-state invariant: for every in-bounds wall position
whose neighbouring room is also in bounds, the room's view of the wall and
the neighbour's view of the shared wall agree. -/
def syncInv (mz : MazeS) : Prop :=
  ∀ p w, w ∈ allWalls mz.shape →
    mz.rooms.inside p = true →
    mz.rooms.inside (addDir p w.dir) = true →
    mz.isOpen (p, w) = mz.isOpen (back mz.shape (p, w))

theorem syncInv_freshMaze (s : Shape) (w h : Nat) : syncInv (freshMaze s w h) := by
  intro p u _ _ _
  rw [isOpen_freshMaze, isOpen_freshMaze]

theorem syncInv_setOpen (mz : MazeS) (q : MPos) (u : Wall) (v : Bool)
    (hu : u ∈ allWalls mz.shape) (hinv : syncInv mz) :
    syncInv (mz.setOpen (q, u) v) := by
  obtain ⟨huW, huI, huB, huD, huM⟩ := shapeOK_all mz.shape u hu
  intro p w hw hp hb
  rw [MazeS.shape_setOpen] at hw
  rw [MazeS.inside_setOpen] at hp hb
  show (mz.setOpen (q, u) v).isOpen (p, w) =
    (mz.setOpen (q, u) v).isOpen (back mz.shape (p, w))
  obtain ⟨hwW, hwI, hwB, hwD, hwM⟩ := shapeOK_all mz.shape w hw
  have hQ1 : (back mz.shape (q, u)).1 = addDir q u.dir := rfl
  have hQ2 : (back mz.shape (q, u)).2 = wallAt mz.shape (backIndex mz.shape u.index) := rfl
  have hP1 : (back mz.shape (p, w)).1 = addDir p w.dir := rfl
  have hP2 : (back mz.shape (p, w)).2 = wallAt mz.shape (backIndex mz.shape w.index) := rfl
  by_cases hA : p = q ∧ w.index = u.index
  · have hwu : w = u := by
      rw [← hwW, hA.2, huW]
    subst hwu
    obtain ⟨hpq, _⟩ := hA
    subst hpq
    rw [MazeS.isOpen_setOpen_self mz p w v hp,
      MazeS.isOpen_setOpen_back mz p w v (by rw [hQ1]; exact hb)]
  · by_cases hB : p = addDir q u.dir ∧ w.index = backIndex mz.shape u.index
    · have hwbu : w = wallAt mz.shape (backIndex mz.shape u.index) := by
        rw [← hwW, hB.2]
      have hwd : w.dir = (-u.dir.1, -u.dir.2) := by
        rw [hwbu]
        exact huD
      have hback_qu : back mz.shape (q, u) = (p, w) := by
        rw [back, ← hB.1, ← hwbu]
      have hback_pw : back mz.shape (p, w) = (q, u) := by
        rw [back]
        have hi : wallAt mz.shape (backIndex mz.shape w.index) = u := by
          rw [hwbu, huI, huB, huW]
        rw [hi, hB.1, hwd]
        rw [addDir_neg_cancel]
      rw [hback_pw]
      have hL : (mz.setOpen (q, u) v).isOpen (p, w) = v := by
        rw [← hback_qu]
        exact MazeS.isOpen_setOpen_back mz q u v (by rw [hQ1, ← hB.1]; exact hp)
      have hR : (mz.setOpen (q, u) v).isOpen (q, u) = v := by
        refine MazeS.isOpen_setOpen_self mz q u v ?_
        have hplace : addDir p w.dir = q := by
          rw [hwd, hB.1, addDir_neg_cancel]
        rw [← hplace]
        exact hb
      rw [hL, hR]
    · have hn1L : ¬(p = q ∧ w.index = u.index) := hA
      have hn2L : ¬(mz.rooms.inside (back mz.shape (q, u)).1 = true ∧
          p = (back mz.shape (q, u)).1 ∧ w.index = (back mz.shape (q, u)).2.index) := by
        intro hc
        refine hB ⟨?_, ?_⟩
        · rw [← hQ1]
          exact hc.2.1
        · rw [hc.2.2, hQ2, huI]
      have hn1R : ¬((back mz.shape (p, w)).1 = q ∧
          (back mz.shape (p, w)).2.index = u.index) := by
        intro hc
        have e1 : backIndex mz.shape w.index = u.index := by
          have e0 := hc.2
          rw [hP2, hwI] at e0
          exact e0
        have e2 : w.index = backIndex mz.shape u.index := by
          rw [← e1]
          exact hwB.symm
        have e3 : w.dir = (-u.dir.1, -u.dir.2) := by
          have e4 : w = wallAt mz.shape (backIndex mz.shape u.index) := by
            rw [← hwW, e2]
          rw [e4]
          exact huD
        refine hB ⟨?_, e2⟩
        have e5 : addDir p w.dir = q := by
          rw [← hP1]
          exact hc.1
        rw [← e5, e3, addDir_neg_cancel2]
      have hn2R : ¬(mz.rooms.inside (back mz.shape (q, u)).1 = true ∧
          (back mz.shape (p, w)).1 = (back mz.shape (q, u)).1 ∧
          (back mz.shape (p, w)).2.index = (back mz.shape (q, u)).2.index) := by
        intro hc
        have hidx : w.index = u.index := by
          have e0 := hc.2.2
          rw [hP2, hwI, hQ2, huI] at e0
          rw [← hwB, e0, huB]
        have hwu : w = u := by
          rw [← hwW, hidx, huW]
        have hpq : p = q := by
          refine addDir_left_cancel p q w.dir ?_
          have e1 := hc.2.1
          rw [hP1, hQ1] at e1
          rw [e1, hwu]
        exact hA ⟨hpq, hidx⟩
      have hL := MazeS.isOpen_setOpen_other mz q u v p w hn1L hn2L
      have hR := MazeS.isOpen_setOpen_other mz q u v
        (back mz.shape (p, w)).1 (back mz.shape (p, w)).2 hn1R hn2R
      have hpair : back mz.shape (p, w) =
          ((back mz.shape (p, w)).1, (back mz.shape (p, w)).2) := rfl
      rw [hpair, hR, hL, ← hpair]
      exact hinv p w hw hp hb

/-- A maze obtained by applying a sequence of open and close operations. -/
def applyOps (mz : MazeS) (ops : List ((MPos × Wall) × Bool)) : MazeS :=
  ops.foldl (fun m op => m.setOpen op.1 op.2) mz

theorem shape_applyOps (mz : MazeS) (ops : List ((MPos × Wall) × Bool)) :
    (applyOps mz ops).shape = mz.shape := by
  induction ops generalizing mz with
  | nil => rfl
  | cons op rest ih =>
    show (applyOps (mz.setOpen op.1 op.2) rest).shape = mz.shape
    rw [ih]
    rfl

theorem inside_applyOps (mz : MazeS) (ops : List ((MPos × Wall) × Bool)) :
    (applyOps mz ops).rooms.inside = mz.rooms.inside := by
  induction ops generalizing mz with
  | nil => rfl
  | cons op rest ih =>
    show (applyOps (mz.setOpen op.1 op.2) rest).rooms.inside = mz.rooms.inside
    rw [ih]
    exact MazeS.inside_setOpen mz op.1 op.2

theorem syncInv_applyOps (mz : MazeS) (ops : List ((MPos × Wall) × Bool))
    (hmz : syncInv mz) (hops : ∀ op ∈ ops, op.1.2 ∈ allWalls mz.shape) :
    syncInv (applyOps mz ops) := by
  induction ops generalizing mz with
  | nil => exact hmz
  | cons op rest ih =>
    show syncInv (applyOps (mz.setOpen op.1 op.2) rest)
    refine ih (mz.setOpen op.1 op.2) ?_ ?_
    · have hop : op.1 = (op.1.1, op.1.2) := rfl
      rw [hop]
      exact syncInv_setOpen mz op.1.1 op.1.2 op.2 (hops op (by simp)) hmz
    · intro o ho
      rw [MazeS.shape_setOpen]
      exact hops o (by simp [ho])

/-- Symmetry of connected for any maze satisfying the two-sided wall-state
invariant. -/
theorem connected_symm_of_syncInv (mz : MazeS) (hinv : syncInv mz)
    (p1 p2 : MPos) (h1 : mz.rooms.inside p1 = true)
    (h2 : mz.rooms.inside p2 = true) :
    mz.connected p1 p2 = mz.connected p2 p1 := by
  unfold MazeS.connected
  by_cases heq : p1 = p2
  · rw [if_pos heq, if_pos heq.symm]
  · rw [if_neg heq, if_neg (fun hc => heq hc.symm)]
    cases hf1 : (wallsAt mz.shape p1).find? (fun w => decide (addDir p1 w.dir = p2)) with
    | some w =>
      have hmem1 := List.mem_of_find?_eq_some hf1
      have hpred1 := List.find?_some hf1
      rw [decide_eq_true_eq] at hpred1
      have hwall := wallsAt_sub_allWalls mz.shape p1 w hmem1
      obtain ⟨hwW, hwI, hwB, hwD, hwM⟩ := shapeOK_all mz.shape w hwall
      have hbmem : (back mz.shape (p1, w)).2 ∈ wallsAt mz.shape p2 := by
        rw [← hpred1]
        exact mem_wallsAt_back mz.shape p1 w hmem1
      have hbdir : addDir p2 (back mz.shape (p1, w)).2.dir = p1 := by
        show addDir p2 (wallAt mz.shape (backIndex mz.shape w.index)).dir = p1
        rw [hwD, ← hpred1, addDir_neg_cancel]
      cases hf2 : (wallsAt mz.shape p2).find? (fun w => decide (addDir p2 w.dir = p1)) with
      | none =>
        exact absurd (by rw [decide_eq_true_eq]; exact hbdir)
          (List.find?_eq_none.mp hf2 _ hbmem)
      | some w2 =>
        have hmem2 := List.mem_of_find?_eq_some hf2
        have hpred2 := List.find?_some hf2
        rw [decide_eq_true_eq] at hpred2
        have hw2 : w2 = (back mz.shape (p1, w)).2 := by
          refine List.inj_on_of_nodup_map (wallsAt_dirs_nodup mz.shape p2)
            hmem2 hbmem ?_
          exact addDir_inj p2 w2.dir (back mz.shape (p1, w)).2.dir
            (by rw [hpred2, hbdir])
        show mz.isOpen (p1, w) = mz.isOpen (p2, w2)
        have hI := hinv p1 w hwall h1 (by rw [hpred1]; exact h2)
        rw [hI, hw2]
        have hbpair : back mz.shape (p1, w) =
            ((back mz.shape (p1, w)).1, (back mz.shape (p1, w)).2) := rfl
        rw [hbpair]
        have hb1 : (back mz.shape (p1, w)).1 = p2 := hpred1
        rw [hb1]
    | none =>
      cases hf2 : (wallsAt mz.shape p2).find? (fun w => decide (addDir p2 w.dir = p1)) with
      | none => rfl
      | some w2 =>
        have hmem2 := List.mem_of_find?_eq_some hf2
        have hpred2 := List.find?_some hf2
        rw [decide_eq_true_eq] at hpred2
        have hwall2 := wallsAt_sub_allWalls mz.shape p2 w2 hmem2
        obtain ⟨hwW, hwI, hwB, hwD, hwM⟩ := shapeOK_all mz.shape w2 hwall2
        have hbmem : (back mz.shape (p2, w2)).2 ∈ wallsAt mz.shape p1 := by
          rw [← hpred2]
          exact mem_wallsAt_back mz.shape p2 w2 hmem2
        have hbdir : addDir p1 (back mz.shape (p2, w2)).2.dir = p2 := by
          show addDir p1 (wallAt mz.shape (backIndex mz.shape w2.index)).dir = p2
          rw [hwD, ← hpred2, addDir_neg_cancel]
        exact absurd (by rw [decide_eq_true_eq]; exact hbdir)
          (List.find?_eq_none.mp hf1 _ hbmem)

/-- C10: for every maze obtained from a freshly constructed maze (all walls
closed) by a sequence of open and close operations on the shape's walls,
connected(pos1, pos2) == connected(pos2, pos1) for in-bounds positions. -/
theorem connected_symm (s : Shape) (wd hd : Nat)
    (ops : List ((MPos × Wall) × Bool))
    (hops : ∀ op ∈ ops, op.1.2 ∈ allWalls s) (p1 p2 : MPos)
    (h1 : (applyOps (freshMaze s wd hd) ops).rooms.inside p1 = true)
    (h2 : (applyOps (freshMaze s wd hd) ops).rooms.inside p2 = true) :
    (applyOps (freshMaze s wd hd) ops).connected p1 p2 =
      (applyOps (freshMaze s wd hd) ops).connected p2 p1 := by
  refine connected_symm_of_syncInv _ ?_ p1 p2 h1 h2
  exact syncInv_applyOps (freshMaze s wd hd) ops (syncInv_freshMaze s wd hd) hops

theorem connected_symm_witness :
    (∀ op ∈ [((MPos.mk 0 0, hexDOWN_RIGHT0), true)], op.1.2 ∈ allWalls Shape.hex) ∧
      (applyOps (freshMaze Shape.hex 2 2)
          [((MPos.mk 0 0, hexDOWN_RIGHT0), true)]).rooms.inside ⟨0, 0⟩ = true ∧
      (applyOps (freshMaze Shape.hex 2 2)
          [((MPos.mk 0 0, hexDOWN_RIGHT0), true)]).connected ⟨0, 0⟩ ⟨1, 1⟩ =
        (applyOps (freshMaze Shape.hex 2 2)
          [((MPos.mk 0 0, hexDOWN_RIGHT0), true)]).connected ⟨1, 1⟩ ⟨0, 0⟩ :=
  ⟨by decide, by decide,
    connected_symm Shape.hex 2 2 [((MPos.mk 0 0, hexDOWN_RIGHT0), true)]
      (by decide) ⟨0, 0⟩ ⟨1, 1⟩ (by decide) (by decide)⟩

/-- Within each room's wall list the wall indices are pairwise distinct. -/
theorem wallsAt_indexes_nodup (s : Shape) (p : MPos) :
    ((wallsAt s p).map Wall.index).Nodup := by
  cases s with
  | hex =>
    show ((if p.row % 2 = 1 then hexALL1 else hexALL0).map Wall.index).Nodup
    split <;> decide
  | quad =>
    show ((quadALL).map Wall.index).Nodup
    decide
  | tri =>
    show ((if (p.col + p.row) % 2 = 1 then triALL1 else triALL0).map Wall.index).Nodup
    split <;> decide

theorem mem_wallsAt_index_inj (s : Shape) (p : MPos) (u u2 : Wall)
    (h1 : u ∈ wallsAt s p) (h2 : u2 ∈ wallsAt s p) (h : u.index = u2.index) :
    u = u2 :=
  List.inj_on_of_nodup_map (wallsAt_indexes_nodup s p) h1 h2 h

theorem MazeS.isOpen_index_congr (m : MazeS) (q : MPos) (u u2 : Wall)
    (h : u.index = u2.index) : m.isOpen (q, u) = m.isOpen (q, u2) := by
  unfold MazeS.isOpen
  rw [h]

theorem MazeS.inside_of_isOpen (m : MazeS) (q : MPos) (u : Wall)
    (h : m.isOpen (q, u) = true) : m.rooms.inside q = true := by
  by_cases hin : m.rooms.inside q = true
  · exact hin
  · have hin2 : m.rooms.inside q = false := by
      revert hin
      cases m.rooms.inside q <;> simp
    rw [MazeS.isOpen_oob _ _ _ hin2] at h
    cases h

/-- Opening a wall never closes an already open wall. -/
theorem MazeS.isOpen_setOpen_mono (mz : MazeS) (wp : MPos × Wall) (q : MPos)
    (u : Wall) (h : mz.isOpen (q, u) = true) :
    (mz.setOpen wp true).isOpen (q, u) = true := by
  by_cases h1 : q = wp.1 ∧ u.index = wp.2.index
  · have hin : mz.rooms.inside wp.1 = true := by
      rw [← h1.1]
      exact MazeS.inside_of_isOpen mz q u h
    have hself := MazeS.isOpen_setOpen_self mz wp.1 wp.2 true hin
    rw [MazeS.isOpen_index_congr _ _ u wp.2 h1.2, h1.1]
    exact hself
  · by_cases h2 : mz.rooms.inside (back mz.shape wp).1 = true ∧
        q = (back mz.shape wp).1 ∧ u.index = (back mz.shape wp).2.index
    · have hback := MazeS.isOpen_setOpen_back mz wp.1 wp.2 true h2.1
      rw [MazeS.isOpen_index_congr _ _ u (back mz.shape wp).2 h2.2.2, h2.2.1]
      exact hback
    · rw [MazeS.isOpen_setOpen_other mz wp.1 wp.2 true q u h1 h2]
      exact h

/-- One step of the clear initializer: consider a wall of a candidate room,
take its back, and open it when the neighbouring room is also a candidate
(absent out-of-bounds reads count as not a candidate). -/
def clearStep (s : Shape) (cand : Mat Bool) (p : MPos) (m : MazeS) (w : Wall) :
    MazeS :=
  if (cand.get (back s (p, w)).1).getD false then m.setOpen (back s (p, w)) true
  else m

/-- The inner loop of the clear initializer over one room's walls. -/
def clearRoom (s : Shape) (cand : Mat Bool) (m : MazeS) (p : MPos) : MazeS :=
  (wallsAt s p).foldl (clearStep s cand p) m

/-- Modelled from the spec: matrix::filter (matrix.rs is not under src/)
builds the boolean matrix of the predicate over room positions and counts
the positions satisfying it.  Cells are only ever read through bounds
checks. -/
def matrixFilter (w h : Nat) (f : MPos → Bool) : Nat × Mat Bool :=
  (((Mat.mk w h f).positionsList.filter (fun p => (Mat.mk w h f).cells p)).length,
    Mat.mk w h f)

/-- initialize from src/maze/src/initialize/clear.rs: return the maze
unchanged when no room passes the filter, else for every candidate room
and every wall of it, open the back of the wall when the neighbouring
room is a candidate. -/
def clearInitialize (mz : MazeS) (f : MPos → Bool) : MazeS :=
  if (matrixFilter mz.rooms.width mz.rooms.height f).1 = 0 then mz
  else
    (mz.rooms.positionsList.filter
        (fun p => (matrixFilter mz.rooms.width mz.rooms.height f).2.cells p)).foldl
      (clearRoom mz.shape (matrixFilter mz.rooms.width mz.rooms.height f).2) mz

theorem clearStep_shape (s : Shape) (cand : Mat Bool) (p : MPos) (m : MazeS)
    (w : Wall) : (clearStep s cand p m w).shape = m.shape := by
  unfold clearStep
  split <;> rfl

theorem clearStep_inside (s : Shape) (cand : Mat Bool) (p : MPos) (m : MazeS)
    (w : Wall) : (clearStep s cand p m w).rooms.inside = m.rooms.inside := by
  unfold clearStep
  split
  · exact MazeS.inside_setOpen m _ true
  · rfl

theorem clearRoom_fold_shape (s : Shape) (cand : Mat Bool) (p : MPos)
    (ws : List Wall) (m : MazeS) :
    (ws.foldl (clearStep s cand p) m).shape = m.shape := by
  induction ws generalizing m with
  | nil => rfl
  | cons w rest ih =>
    show (rest.foldl (clearStep s cand p) (clearStep s cand p m w)).shape = m.shape
    rw [ih, clearStep_shape]

theorem clearRoom_fold_inside (s : Shape) (cand : Mat Bool) (p : MPos)
    (ws : List Wall) (m : MazeS) :
    (ws.foldl (clearStep s cand p) m).rooms.inside = m.rooms.inside := by
  induction ws generalizing m with
  | nil => rfl
  | cons w rest ih =>
    show (rest.foldl (clearStep s cand p) (clearStep s cand p m w)).rooms.inside =
      m.rooms.inside
    rw [ih, clearStep_inside]

theorem clearRoom_shape (s : Shape) (cand : Mat Bool) (m : MazeS) (p : MPos) :
    (clearRoom s cand m p).shape = m.shape :=
  clearRoom_fold_shape s cand p (wallsAt s p) m

theorem clearRoom_inside (s : Shape) (cand : Mat Bool) (m : MazeS) (p : MPos) :
    (clearRoom s cand m p).rooms.inside = m.rooms.inside :=
  clearRoom_fold_inside s cand p (wallsAt s p) m

theorem clearRoom_fold_mono (s : Shape) (cand : Mat Bool) (p : MPos)
    (ws : List Wall) (m : MazeS) (q : MPos) (u : Wall)
    (h : m.isOpen (q, u) = true) :
    (ws.foldl (clearStep s cand p) m).isOpen (q, u) = true := by
  induction ws generalizing m with
  | nil => exact h
  | cons w rest ih =>
    show (rest.foldl (clearStep s cand p) (clearStep s cand p m w)).isOpen (q, u) = true
    refine ih (clearStep s cand p m w) ?_
    unfold clearStep
    split
    · exact MazeS.isOpen_setOpen_mono m _ q u h
    · exact h

theorem clear_fold_mono (s : Shape) (cand : Mat Bool) (P : List MPos)
    (m : MazeS) (q : MPos) (u : Wall) (h : m.isOpen (q, u) = true) :
    (P.foldl (clearRoom s cand) m).isOpen (q, u) = true := by
  induction P generalizing m with
  | nil => exact h
  | cons p rest ih =>
    show (rest.foldl (clearRoom s cand) (clearRoom s cand m p)).isOpen (q, u) = true
    exact ih _ (clearRoom_fold_mono s cand p _ m q u h)

theorem clear_fold_shape (s : Shape) (cand : Mat Bool) (P : List MPos)
    (m : MazeS) : (P.foldl (clearRoom s cand) m).shape = m.shape := by
  induction P generalizing m with
  | nil => rfl
  | cons p rest ih =>
    show (rest.foldl (clearRoom s cand) (clearRoom s cand m p)).shape = m.shape
    rw [ih]
    exact clearRoom_fold_shape s cand p _ m

theorem clear_fold_inside (s : Shape) (cand : Mat Bool) (P : List MPos)
    (m : MazeS) : (P.foldl (clearRoom s cand) m).rooms.inside = m.rooms.inside := by
  induction P generalizing m with
  | nil => rfl
  | cons p rest ih =>
    show (rest.foldl (clearRoom s cand) (clearRoom s cand m p)).rooms.inside =
      m.rooms.inside
    rw [ih]
    exact clearRoom_fold_inside s cand p _ m

/-- The guard of a clear step reads the candidate matrix bounds-checked. -/
theorem candGet_eq (cand : Mat Bool) (x : MPos) :
    (cand.get x).getD false =
      (if cand.inside x = true then cand.cells x else false) := by
  unfold Mat.get
  by_cases hin : cand.inside x = true
  · rw [if_pos hin, if_pos hin]
    rfl
  · rw [if_neg hin, if_neg hin]
    rfl

theorem candGet_true (cand : Mat Bool) (x : MPos)
    (hg : (cand.get x).getD false = true) :
    cand.inside x = true ∧ cand.cells x = true := by
  rw [candGet_eq] at hg
  by_cases hin : cand.inside x = true
  · rw [if_pos hin] at hg
    exact ⟨hin, hg⟩
  · rw [if_neg hin] at hg
    cases hg

/-- Frame property of the inner clear loop: a wall whose two rooms are not
both in-bounds candidates keeps its original open state. -/
theorem clearRoom_fold_frame (s : Shape) (cand : Mat Bool) (p : MPos)
    (ws : List Wall) (hws : ∀ w ∈ ws, w ∈ wallsAt s p)
    (m : MazeS) (hshape : m.shape = s) (hins : m.rooms.inside = cand.inside)
    (hp_in : cand.inside p = true) (hp_f : cand.cells p = true)
    (q : MPos) (u : Wall) (hu : u ∈ wallsAt s q)
    (hng : ¬(cand.inside q = true ∧ cand.inside (addDir q u.dir) = true ∧
      cand.cells q = true ∧ cand.cells (addDir q u.dir) = true)) :
    (ws.foldl (clearStep s cand p) m).isOpen (q, u) = m.isOpen (q, u) := by
  induction ws generalizing m with
  | nil => rfl
  | cons w rest ih =>
    have hwmem : w ∈ wallsAt s p := hws w (by simp)
    have hwall : w ∈ allWalls s := wallsAt_sub_allWalls s p w hwmem
    obtain ⟨hwW, hwI, hwB, hwD, hwM⟩ := shapeOK_all s w hwall
    have hbb : back s (back s (p, w)) = (p, w) := back_back_aux s p w hwall
    show (rest.foldl (clearStep s cand p) (clearStep s cand p m w)).isOpen (q, u) =
      m.isOpen (q, u)
    rw [ih (fun w2 hw2 => hws w2 (by simp [hw2])) (clearStep s cand p m w)
      (by rw [clearStep_shape]; exact hshape)
      (by rw [clearStep_inside]; exact hins)]
    unfold clearStep
    by_cases hg : ((cand.get (back s (p, w)).1).getD false) = true
    · rw [if_pos hg]
      obtain ⟨hg_in, hg_f⟩ := candGet_true cand _ hg
      have hn1 : ¬(q = (back s (p, w)).1 ∧ u.index = (back s (p, w)).2.index) := by
        intro hc
        have hq : q = addDir p w.dir := hc.1
        have hui : u.index = backIndex s w.index := by
          have e := hc.2
          rw [show (back s (p, w)).2 = wallAt s (backIndex s w.index) from rfl,
            hwI] at e
          exact e
        have humem : u ∈ wallsAt s (addDir p w.dir) := hq ▸ hu
        have hbw_mem : wallAt s (backIndex s w.index) ∈ wallsAt s (addDir p w.dir) :=
          mem_wallsAt_back s p w hwmem
        have huw : u = wallAt s (backIndex s w.index) :=
          mem_wallsAt_index_inj s (addDir p w.dir) u _ humem hbw_mem
            (by rw [hui, hwI])
        have hud : u.dir = (-w.dir.1, -w.dir.2) := by
          rw [huw]
          exact hwD
        have haq : addDir q u.dir = p := by
          rw [hq, hud, addDir_neg_cancel]
        refine hng ⟨?_, ?_, ?_, ?_⟩
        · rw [hq]
          exact hg_in
        · rw [haq]
          exact hp_in
        · rw [hq]
          exact hg_f
        · rw [haq]
          exact hp_f
      have hn2 : ¬(m.rooms.inside (back m.shape (back s (p, w))).1 = true ∧
          q = (back m.shape (back s (p, w))).1 ∧
          u.index = (back m.shape (back s (p, w))).2.index) := by
        intro hc
        rw [hshape, hbb] at hc
        have hq : q = p := hc.2.1
        have huw : u = w := by
          refine mem_wallsAt_index_inj s p u w (hq ▸ hu) hwmem ?_
          exact hc.2.2
        refine hng ⟨?_, ?_, ?_, ?_⟩
        · rw [hq]
          exact hp_in
        · rw [hq, huw]
          exact hg_in
        · rw [hq]
          exact hp_f
        · rw [hq, huw]
          exact hg_f
      exact MazeS.isOpen_setOpen_other m (back s (p, w)).1 (back s (p, w)).2 true
        q u hn1 hn2
    · rw [if_neg hg]

/-- Progress property of the inner clear loop: a wall of the processed
candidate room whose neighbour is an in-bounds candidate ends up open. -/
theorem clearRoom_fold_progress (s : Shape) (cand : Mat Bool) (p : MPos)
    (ws : List Wall) (hws : ∀ w ∈ ws, w ∈ wallsAt s p)
    (m : MazeS) (hshape : m.shape = s) (hins : m.rooms.inside = cand.inside)
    (u : Wall) (hu : u ∈ ws) (hp_in : cand.inside p = true)
    (hg : (cand.get (addDir p u.dir)).getD false = true) :
    (ws.foldl (clearStep s cand p) m).isOpen (p, u) = true := by
  induction ws generalizing m with
  | nil => cases hu
  | cons w rest ih =>
    rcases List.mem_cons.mp hu with rfl | hu2
    · show (rest.foldl (clearStep s cand p) (clearStep s cand p m u)).isOpen (p, u) = true
      refine clearRoom_fold_mono s cand p rest _ p u ?_
      have humem : u ∈ wallsAt s p := hws u (by simp)
      have huwall : u ∈ allWalls s := wallsAt_sub_allWalls s p u humem
      have hbb : back s (back s (p, u)) = (p, u) := back_back_aux s p u huwall
      unfold clearStep
      have hg2 : ((cand.get (back s (p, u)).1).getD false) = true := hg
      rw [if_pos hg2]
      have e : back m.shape ((back s (p, u)).1, (back s (p, u)).2) = (p, u) := by
        rw [hshape]
        exact hbb
      have hin : m.rooms.inside
          (back m.shape ((back s (p, u)).1, (back s (p, u)).2)).1 = true := by
        rw [e, hins]
        exact hp_in
      have h1 := MazeS.isOpen_setOpen_back m (back s (p, u)).1 (back s (p, u)).2
        true hin
      rw [e] at h1
      exact h1
    · show (rest.foldl (clearStep s cand p) (clearStep s cand p m w)).isOpen (p, u) = true
      exact ih (fun w2 hw2 => hws w2 (by simp [hw2])) (clearStep s cand p m w)
        (by rw [clearStep_shape]; exact hshape)
        (by rw [clearStep_inside]; exact hins) hu2

theorem clear_fold_frame (s : Shape) (cand : Mat Bool) (P : List MPos)
    (hP : ∀ p ∈ P, cand.inside p = true ∧ cand.cells p = true)
    (m : MazeS) (hshape : m.shape = s) (hins : m.rooms.inside = cand.inside)
    (q : MPos) (u : Wall) (hu : u ∈ wallsAt s q)
    (hng : ¬(cand.inside q = true ∧ cand.inside (addDir q u.dir) = true ∧
      cand.cells q = true ∧ cand.cells (addDir q u.dir) = true)) :
    (P.foldl (clearRoom s cand) m).isOpen (q, u) = m.isOpen (q, u) := by
  induction P generalizing m with
  | nil => rfl
  | cons p rest ih =>
    show (rest.foldl (clearRoom s cand) (clearRoom s cand m p)).isOpen (q, u) =
      m.isOpen (q, u)
    rw [ih (fun p2 hp2 => hP p2 (by simp [hp2])) (clearRoom s cand m p)
      (by rw [clearRoom_shape]; exact hshape)
      (by rw [clearRoom_inside]; exact hins)]
    exact clearRoom_fold_frame s cand p (wallsAt s p) (fun _ h2 => h2) m hshape hins
      (hP p (by simp)).1 (hP p (by simp)).2 q u hu hng

theorem clear_fold_progress (s : Shape) (cand : Mat Bool) (P : List MPos)
    (m : MazeS) (hshape : m.shape = s) (hins : m.rooms.inside = cand.inside)
    (q : MPos) (hq : q ∈ P) (hq_in : cand.inside q = true)
    (u : Wall) (hu : u ∈ wallsAt s q)
    (hg : (cand.get (addDir q u.dir)).getD false = true) :
    (P.foldl (clearRoom s cand) m).isOpen (q, u) = true := by
  induction P generalizing m with
  | nil => cases hq
  | cons p rest ih =>
    rcases List.mem_cons.mp hq with rfl | hq2
    · show (rest.foldl (clearRoom s cand) (clearRoom s cand m q)).isOpen (q, u) = true
      refine clear_fold_mono s cand rest _ q u ?_
      exact clearRoom_fold_progress s cand q (wallsAt s q) (fun _ h2 => h2) m
        hshape hins u hu hq_in hg
    · show (rest.foldl (clearRoom s cand) (clearRoom s cand m p)).isOpen (q, u) = true
      exact ih (clearRoom s cand m p)
        (by rw [clearRoom_shape]; exact hshape)
        (by rw [clearRoom_inside]; exact hins) hq2

/-- C9: in the maze returned by the clear initializer, every wall between
two in-bounds rooms that both satisfy the filter is open; the state of
every other wall is unchanged; and with no position satisfying the filter
the maze is returned entirely unchanged. -/
theorem clear_initialize_spec (mz : MazeS) (f : MPos → Bool) :
    (∀ p w, w ∈ wallsAt mz.shape p →
      mz.rooms.inside p = true → mz.rooms.inside (addDir p w.dir) = true →
      f p = true → f (addDir p w.dir) = true →
      (clearInitialize mz f).isOpen (p, w) = true) ∧
    (∀ p w, w ∈ wallsAt mz.shape p →
      ¬(mz.rooms.inside p = true ∧ mz.rooms.inside (addDir p w.dir) = true ∧
        f p = true ∧ f (addDir p w.dir) = true) →
      (clearInitialize mz f).isOpen (p, w) = mz.isOpen (p, w)) ∧
    ((∀ p, mz.rooms.inside p = true → f p = false) → clearInitialize mz f = mz) := by
  have hinsA : mz.rooms.inside =
      (Mat.mk mz.rooms.width mz.rooms.height f : Mat Bool).inside := by
    funext x
    rfl
  have hins : mz.rooms.inside =
      (matrixFilter mz.rooms.width mz.rooms.height f).2.inside := hinsA
  have hmempos : ∀ x : MPos, x ∈ (Mat.mk mz.rooms.width mz.rooms.height f :
      Mat Bool).positionsList ↔ mz.rooms.inside x = true := by
    intro x
    rw [Mat.mem_positionsList]
    constructor
    · intro h2
      rw [hinsA]
      exact h2
    · intro h2
      rw [← hinsA]
      exact h2
  refine ⟨?_, ?_, ?_⟩
  · intro p w hw hpin hbin hfp hfb
    unfold clearInitialize
    rw [if_neg ?_]
    · refine clear_fold_progress mz.shape _ _ mz rfl hins p ?_ ?_ w hw ?_
      · refine List.mem_filter.mpr ⟨?_, ?_⟩
        · rw [Mat.mem_positionsList]
          exact hpin
        · exact hfp
      · rw [← hins]
        exact hpin
      · rw [candGet_eq, if_pos (by rw [← hins]; exact hbin)]
        exact hfb
    · intro hcount
      rw [show (matrixFilter mz.rooms.width mz.rooms.height f).1 =
        ((Mat.mk mz.rooms.width mz.rooms.height f : Mat Bool).positionsList.filter
          (fun x => (Mat.mk mz.rooms.width mz.rooms.height f : Mat Bool).cells x)).length
        from rfl] at hcount
      have hpmem : p ∈ (Mat.mk mz.rooms.width mz.rooms.height f :
          Mat Bool).positionsList.filter
          (fun x => (Mat.mk mz.rooms.width mz.rooms.height f : Mat Bool).cells x) :=
        List.mem_filter.mpr ⟨(hmempos p).mpr hpin, hfp⟩
      rw [List.length_eq_zero] at hcount
      rw [hcount] at hpmem
      cases hpmem
  · intro p w hw hn
    unfold clearInitialize
    by_cases hcount : (matrixFilter mz.rooms.width mz.rooms.height f).1 = 0
    · rw [if_pos hcount]
    · rw [if_neg hcount]
      refine clear_fold_frame mz.shape _ _ ?_ mz rfl hins p w hw ?_
      · intro p2 hp2
        have hp3 := List.mem_filter.mp hp2
        refine ⟨?_, hp3.2⟩
        rw [← hins]
        exact (Mat.mem_positionsList mz.rooms p2).mp hp3.1
      · intro hc
        exact hn ⟨by rw [hins]; exact hc.1, by rw [hins]; exact hc.2.1,
          hc.2.2.1, hc.2.2.2⟩
  · intro hall
    unfold clearInitialize
    rw [if_pos ?_]
    rw [show (matrixFilter mz.rooms.width mz.rooms.height f).1 =
      ((Mat.mk mz.rooms.width mz.rooms.height f : Mat Bool).positionsList.filter
        (fun x => (Mat.mk mz.rooms.width mz.rooms.height f : Mat Bool).cells x)).length
      from rfl]
    rw [List.length_eq_zero]
    rw [List.filter_eq_nil_iff]
    intro a ha
    have hin := (hmempos a).mp ha
    have hfa := hall a hin
    rw [show ((Mat.mk mz.rooms.width mz.rooms.height f : Mat Bool).cells a) = f a
      from rfl, hfa]
    exact Bool.false_ne_true

theorem clear_initialize_spec_witness :
    hexRIGHT0 ∈ wallsAt Shape.hex ⟨0, 0⟩ ∧
      (freshMaze Shape.hex 2 1).rooms.inside ⟨0, 0⟩ = true ∧
      (freshMaze Shape.hex 2 1).rooms.inside (addDir ⟨0, 0⟩ hexRIGHT0.dir) = true ∧
      (clearInitialize (freshMaze Shape.hex 2 1) (fun _ => true)).isOpen
        (⟨0, 0⟩, hexRIGHT0) = true :=
  ⟨by decide, by decide, by decide,
    (clear_initialize_spec (freshMaze Shape.hex 2 1) (fun _ => true)).1
      ⟨0, 0⟩ hexRIGHT0 (by decide) (by decide) (by decide) (by decide) (by decide)⟩

/-- A view box: corner (x, y) closest to the origin plus width and height
(shape::ViewBox), over ℚ. -/
structure ViewB where
  x : ℚ
  y : ℚ
  w : ℚ
  h : ℚ

/-- The site sampling of Methods::matrix from
src/tools/src/voronoi/initialize.rs: for each method index i a site at
(left + random()*width, top + random()*height) with weight
random() + 0.5, consuming three randomizer values per site in x, y,
weight order. -/
def sampleSites (vb : ViewB) (n : Nat) (rnd : Nat → ℚ) :
    List ((ℚ × ℚ) × ℚ × Nat) :=
  (List.range n).map (fun i =>
    ((vb.x + rnd (3 * i) * vb.w, vb.y + rnd (3 * i + 1) * vb.h),
      rnd (3 * i + 2) + 1/2, i))

/-- C7: for a randomizer whose random() values lie in [0, 1), every sampled
Voronoi site has its physical position inside the maze's bounding box and
its weight in the half-open interval [0.5, 1.5). -/
theorem sampleSites_spec (vb : ViewB) (n : Nat) (rnd : Nat → ℚ)
    (hrnd : ∀ k, 0 ≤ rnd k ∧ rnd k < 1) (hw : 0 ≤ vb.w) (hh : 0 ≤ vb.h) :
    ∀ site ∈ sampleSites vb n rnd,
      vb.x ≤ site.1.1 ∧ site.1.1 ≤ vb.x + vb.w ∧
      vb.y ≤ site.1.2 ∧ site.1.2 ≤ vb.y + vb.h ∧
      1/2 ≤ site.2.1 ∧ site.2.1 < 3/2 := by
  intro site hs
  rw [sampleSites, List.mem_map] at hs
  obtain ⟨i, hi, rfl⟩ := hs
  obtain ⟨h0x, h1x⟩ := hrnd (3 * i)
  obtain ⟨h0y, h1y⟩ := hrnd (3 * i + 1)
  obtain ⟨h0w, h1w⟩ := hrnd (3 * i + 2)
  dsimp only
  refine ⟨?_, ?_, ?_, ?_, ?_, ?_⟩
  · nlinarith
  · nlinarith
  · nlinarith
  · nlinarith
  · linarith
  · linarith

theorem sampleSites_spec_witness :
    (0 : ℚ) ≤ 1 ∧
      ∀ site ∈ sampleSites ⟨0, 0, 1, 1⟩ 2 (fun _ => 0),
        (0 : ℚ) ≤ site.1.1 ∧ site.1.1 ≤ (0 : ℚ) + 1 ∧
        (0 : ℚ) ≤ site.1.2 ∧ site.1.2 ≤ (0 : ℚ) + 1 ∧
        1/2 ≤ site.2.1 ∧ site.2.1 < 3/2 :=
  ⟨zero_le_one,
    sampleSites_spec ⟨0, 0, 1, 1⟩ 2 (fun _ => 0)
      (fun _ => ⟨le_refl 0, zero_lt_one⟩) zero_le_one zero_le_one⟩

/-- wall_positions(pos): the walls of a room as wall positions.  Modelled
from the spec (the maze crate's lib.rs is not under src/): the per-room
wall list paired with the room position. -/
def wallPositions (s : Shape) (p : MPos) : List (MPos × Wall) :=
  (wallsAt s p).map (fun w => (p, w))

/-- The boundary-edge entries of Methods::edges from
src/tools/src/voronoi/initialize.rs: for every matrix position and wall
of it, pair the wall with its back, keep it when the neighbouring room is
inside the matrix and the two assignment values differ, and record it
keyed by the unordered pair of values, oriented from the smaller value to
the larger. -/
def boundaryEntries (s : Shape) (A : Mat Nat) :
    List ((Nat × Nat) × (MPos × Wall)) :=
  A.positionsList.flatMap (fun p =>
    (wallPositions s p).filterMap (fun wp =>
      if A.inside (back s wp).1 then
        if A.cells wp.1 = A.cells (back s wp).1 then none
        else if A.cells wp.1 < A.cells (back s wp).1 then
          some ((A.cells wp.1, A.cells (back s wp).1), wp)
        else some ((A.cells (back s wp).1, A.cells wp.1), back s wp)
      else none))

/-- The boundary wall set of one unordered region pair: one HashSet value
of Methods::edges, as a deduplicated list. -/
def boundarySet (s : Shape) (A : Mat Nat) (k : Nat × Nat) : List (MPos × Wall) :=
  ((boundaryEntries s A).filterMap
    (fun e => if e.1 = k then some e.2 else none)).dedup

/-- The region pairs with a non-empty boundary wall set (the keys of
Methods::edges), each once. -/
def boundaryKeys (s : Shape) (A : Mat Nat) : List (Nat × Nat) :=
  ((boundaryEntries s A).map Prod.fst).dedup

/-- The connector step of Methods::initialize: for every boundary wall set,
open the wall at the randomizer-chosen index (rng.range(0, len)). -/
def connectorOpens (s : Shape) (A : Mat Nat) (choice : Nat × Nat → Nat) :
    List (MPos × Wall) :=
  (boundaryKeys s A).map
    (fun k => (boundarySet s A k).getD (choice k) (MPos.mk 0 0, hexLEFT0))

/-- Two adjacent in-bounds rooms carrying the two assignment values in
either order. -/
def hasBoundary (s : Shape) (A : Mat Nat) (a b : Nat) : Prop :=
  ∃ p w, w ∈ wallsAt s p ∧ A.inside p = true ∧
    A.inside (addDir p w.dir) = true ∧
    ((A.cells p = a ∧ A.cells (addDir p w.dir) = b) ∨
     (A.cells p = b ∧ A.cells (addDir p w.dir) = a))

theorem countP_eq_one_of_nodup_mem {α : Type} [DecidableEq α] (l : List α)
    (a : α) (hn : l.Nodup) (hm : a ∈ l) :
    l.countP (fun x => decide (x = a)) = 1 := by
  induction l with
  | nil => cases hm
  | cons b rest ih =>
    obtain ⟨hb, hrest⟩ := List.nodup_cons.mp hn
    rw [List.countP_cons]
    by_cases hba : b = a
    · subst hba
      rw [if_pos (by simp)]
      have hz : rest.countP (fun x => decide (x = b)) = 0 := by
        rw [List.countP_eq_zero]
        intro x hx
        rw [decide_eq_true_eq]
        intro hxa
        rw [hxa] at hx
        exact hb hx
      rw [hz]
    · have hm2 : a ∈ rest := by
        rcases List.mem_cons.mp hm with h1 | h2
        · exact absurd h1.symm hba
        · exact h2
      rw [if_neg (by rw [decide_eq_true_eq]; exact hba), ih hrest hm2]

theorem getD_mem_of_lt {α : Type} (l : List α) (n : Nat) (d : α)
    (h : n < l.length) : l.getD n d ∈ l := by
  induction l generalizing n with
  | nil => cases h
  | cons a rest ih =>
    cases n with
    | zero => exact List.mem_cons_self a rest
    | succ n2 =>
      have h2 : n2 < rest.length := Nat.lt_of_succ_lt_succ h
      exact List.mem_cons_of_mem a (ih n2 h2)

/-- The entries produced by Methods::edges always stand in canonical
orientation: the key is the pair of assignment values read from the
recorded wall position, smaller first, and the recorded wall is a table
wall of an in-bounds room. -/
theorem boundaryEntries_canonical (s : Shape) (A : Mat Nat)
    (e : (Nat × Nat) × (MPos × Wall)) (he : e ∈ boundaryEntries s A) :
    e.1 = (A.cells e.2.1, A.cells (back s e.2).1) ∧
      A.cells e.2.1 < A.cells (back s e.2).1 := by
  rw [boundaryEntries, List.mem_flatMap] at he
  obtain ⟨p, hp, he2⟩ := he
  rw [List.mem_filterMap] at he2
  obtain ⟨wp, hwp, hval⟩ := he2
  rw [wallPositions, List.mem_map] at hwp
  obtain ⟨w, hw, rfl⟩ := hwp
  have hwall : w ∈ allWalls s := wallsAt_sub_allWalls s p w hw
  have hbb : back s (back s (p, w)) = (p, w) := back_back_aux s p w hwall
  by_cases hin : A.inside (back s (p, w)).1 = true
  · rw [if_pos hin] at hval
    by_cases heq : A.cells (p, w).1 = A.cells (back s (p, w)).1
    · rw [if_pos heq] at hval
      cases hval
    · rw [if_neg heq] at hval
      by_cases hlt : A.cells (p, w).1 < A.cells (back s (p, w)).1
      · rw [if_pos hlt] at hval
        have he3 := Option.some.inj hval
        rw [← he3]
        exact ⟨rfl, hlt⟩
      · rw [if_neg hlt] at hval
        have he3 := Option.some.inj hval
        rw [← he3]
        dsimp only
        rw [hbb]
        have hgt : A.cells (back s (p, w)).1 < A.cells (p, w).1 := by
          omega
        exact ⟨rfl, hgt⟩
  · rw [if_neg hin] at hval
    cases hval

/-- Membership in a boundary wall set is membership of the keyed entry. -/
theorem mem_boundarySet (s : Shape) (A : Mat Nat) (k : Nat × Nat)
    (wp : MPos × Wall) :
    wp ∈ boundarySet s A k ↔ (k, wp) ∈ boundaryEntries s A := by
  rw [boundarySet, List.mem_dedup, List.mem_filterMap]
  constructor
  · rintro ⟨e, he, hval⟩
    by_cases hk : e.1 = k
    · rw [if_pos hk] at hval
      have he2 := Option.some.inj hval
      have he3 : e = (k, wp) := by
        cases e with
        | mk e1 e2 =>
          dsimp only at hk he2
          rw [hk, he2]
      rw [← he3]
      exact he
    · rw [if_neg hk] at hval
      cases hval
  · intro he
    exact ⟨(k, wp), he, by rw [if_pos rfl]⟩

/-- Distinct region pairs have disjoint boundary wall sets: the key is
recoverable from any element. -/
theorem boundarySet_disjoint (s : Shape) (A : Mat Nat) (k k2 : Nat × Nat)
    (wp : MPos × Wall) (h1 : wp ∈ boundarySet s A k)
    (h2 : wp ∈ boundarySet s A k2) : k = k2 := by
  have e1 := boundaryEntries_canonical s A (k, wp)
    ((mem_boundarySet s A k wp).mp h1)
  have e2 := boundaryEntries_canonical s A (k2, wp)
    ((mem_boundarySet s A k2 wp).mp h2)
  dsimp only at e1 e2
  exact e1.1.trans e2.1.symm

/-- A region pair with an adjacent differing in-bounds room pair produces a
canonical entry. -/
theorem hasBoundary_mem_keys (s : Shape) (A : Mat Nat) (a b : Nat)
    (hab : a < b) (hbd : hasBoundary s A a b) :
    (a, b) ∈ boundaryKeys s A := by
  obtain ⟨p, w, hw, hp, hb, hval⟩ := hbd
  rw [boundaryKeys, List.mem_dedup, List.mem_map]
  have hpmem : p ∈ A.positionsList := (Mat.mem_positionsList A p).mpr hp
  have hwp : (p, w) ∈ wallPositions s p := by
    rw [wallPositions, List.mem_map]
    exact ⟨w, hw, rfl⟩
  have hbin : A.inside (back s (p, w)).1 = true := hb
  rcases hval with ⟨hva, hvb⟩ | ⟨hva, hvb⟩
  · refine ⟨((a, b), (p, w)), ?_, rfl⟩
    rw [boundaryEntries, List.mem_flatMap]
    refine ⟨p, hpmem, ?_⟩
    rw [List.mem_filterMap]
    refine ⟨(p, w), hwp, ?_⟩
    rw [if_pos hbin]
    have hcp : A.cells (p, w).1 = a := hva
    have hcb : A.cells (back s (p, w)).1 = b := hvb
    rw [hcp, hcb, if_neg (by omega), if_pos hab]
  · refine ⟨((a, b), back s (p, w)), ?_, rfl⟩
    rw [boundaryEntries, List.mem_flatMap]
    refine ⟨p, hpmem, ?_⟩
    rw [List.mem_filterMap]
    refine ⟨(p, w), hwp, ?_⟩
    rw [if_pos hbin]
    have hcp : A.cells (p, w).1 = b := hva
    have hcb : A.cells (back s (p, w)).1 = a := hvb
    rw [hcp, hcb, if_neg (by omega), if_neg (by omega)]

/-- C2: boundary walls are recorded keyed by the unordered region pair in
canonical orientation, and for every pair of distinct regions with at
least one adjacent in-bounds differing room pair, the connector step opens
exactly one wall from that pair's boundary wall set. -/
theorem connector_opens_one_per_pair (s : Shape) (A : Mat Nat)
    (choice : Nat × Nat → Nat)
    (hch : ∀ k ∈ boundaryKeys s A, choice k < (boundarySet s A k).length)
    (a b : Nat) (hab : a < b) (hbd : hasBoundary s A a b) :
    (∀ k ∈ boundaryKeys s A, k.1 < k.2) ∧
      (connectorOpens s A choice).countP
        (fun wp => decide (wp ∈ boundarySet s A (a, b))) = 1 := by
  have hkeys_lt : ∀ k ∈ boundaryKeys s A, k.1 < k.2 := by
    intro k hk
    rw [boundaryKeys, List.mem_dedup, List.mem_map] at hk
    obtain ⟨e, he, rfl⟩ := hk
    have hcanon := boundaryEntries_canonical s A e he
    rw [hcanon.1]
    exact hcanon.2
  refine ⟨hkeys_lt, ?_⟩
  have hmem : (a, b) ∈ boundaryKeys s A := hasBoundary_mem_keys s A a b hab hbd
  have hnodup : (boundaryKeys s A).Nodup := List.nodup_dedup _
  rw [connectorOpens, List.countP_map]
  have hpick : ∀ k ∈ boundaryKeys s A,
      (boundarySet s A k).getD (choice k) (MPos.mk 0 0, hexLEFT0) ∈
        boundarySet s A k := by
    intro k hk
    exact getD_mem_of_lt _ _ _ (hch k hk)
  have hcongr : ∀ k ∈ boundaryKeys s A,
      ((fun wp => decide (wp ∈ boundarySet s A (a, b))) ∘
        (fun k => (boundarySet s A k).getD (choice k) (MPos.mk 0 0, hexLEFT0))) k =
        true ↔ (decide (k = (a, b))) = true := by
    intro k hk
    constructor
    · intro hc
      rw [Function.comp_apply, decide_eq_true_eq] at hc
      rw [decide_eq_true_eq]
      exact boundarySet_disjoint s A k (a, b) _ (hpick k hk) hc
    · intro hc
      rw [decide_eq_true_eq] at hc
      rw [Function.comp_apply, decide_eq_true_eq]
      rw [← hc]
      exact hpick k hk
  rw [List.countP_congr hcongr]
  exact countP_eq_one_of_nodup_mem (boundaryKeys s A) (a, b) hnodup hmem

/-- A 2 by 1 assignment matrix with two regions, used to exercise the
connector theorem on a concrete input. -/
def voronoiExampleMatrix : Mat Nat :=
  ⟨2, 1, fun p => if p.col = 0 then 0 else 1⟩

theorem connector_opens_witness :
    0 < 1 ∧
      ((∀ k ∈ boundaryKeys Shape.hex voronoiExampleMatrix, k.1 < k.2) ∧
        (connectorOpens Shape.hex voronoiExampleMatrix (fun _ => 0)).countP
          (fun wp =>
            decide (wp ∈ boundarySet Shape.hex voronoiExampleMatrix (0, 1))) = 1) :=
  ⟨Nat.zero_lt_one,
    connector_opens_one_per_pair Shape.hex voronoiExampleMatrix (fun _ => 0)
      (by decide) 0 1 Nat.zero_lt_one
      ⟨⟨0, 0⟩, hexRIGHT0, by decide, by decide, by decide,
        Or.inl ⟨by decide, by decide⟩⟩⟩

/-- HORIZONTAL_MULTIPLICATOR for hex rooms: 2 * cos(30°). -/
def hexHM : ℚ := 2 * qCos30

/-- VERTICAL_MULTIPLICATOR for hex rooms: 2 - sin(30°) = 3/2. -/
def hexVM : ℚ := 2 - 1/2

/-- hex::center from the source: the x coordinate is shifted by half a
room on odd rows (brick-offset layout). -/
def hexCenter (p : MPos) : ℚ × ℚ :=
  (((p.col : ℚ) + if p.row % 2 = 1 then 1/2 else 1) * hexHM,
    (p.row : ℚ) * hexVM + 1)

/-- The physical centre of a room by shape: hex from the source; quad and
tri modelled from the spec (quad rooms are 2-unit squares, tri rooms
alternate orientation on a cos(30°) grid). -/
def cellCenter : Shape → MPos → ℚ × ℚ
  | .hex, p => hexCenter p
  | .quad, p => ((p.col : ℚ) * 2 + 1, (p.row : ℚ) * 2 + 1)
  | .tri, p => (((p.col : ℚ) + 1) * qCos30, (p.row : ℚ) * (3/2) + 3/4)

/-- The wall corner points of a room: its centre plus each wall's span
start offset. -/
def cornerPoints (s : Shape) (p : MPos) : List (ℚ × ℚ) :=
  (wallsAt s p).map (fun w =>
    ((cellCenter s p).1 + (wallSpan0 s w.index).1,
     (cellCenter s p).2 + (wallSpan0 s w.index).2))

/-- f32::MAX as a rational. -/
def qF32MAX : ℚ := (2 ^ 24 - 1) * 2 ^ 104

/-- Shape::viewbox from src/maze/src/shape/mod.rs: fold the wall corner
points of the leftmost and rightmost room of every row into a minimal
bounding window, starting from the (f32::MAX, f32::MAX, f32::MIN,
f32::MIN) window. -/
def mazeViewbox (s : Shape) (cols rows : Nat) : ViewB :=
  let window := (List.range rows).foldl
    (fun window y =>
      (cornerPoints s ⟨0, (y : Int)⟩ ++
          cornerPoints s ⟨(cols : Int) - 1, (y : Int)⟩).foldl
        (fun acc v =>
          (min acc.1 v.1, min acc.2.1 v.2, max acc.2.2.1 v.1, max acc.2.2.2 v.2))
        window)
    (qF32MAX, qF32MAX, -qF32MAX, -qF32MAX)
  ⟨window.1, window.2.1, window.2.2.1 - window.1, window.2.2.2 - window.2.1⟩

/-- A pluggable generation strategy applied to a maze under a position
filter (initialize::Method together with Maze::initialize_filter).
Modelled from the spec: the initialize module of the maze crate is not
under src/; a strategy is an opaque maze transformer taking the
restriction filter. -/
structure InitMethod where
  run : MazeS → (MPos → Bool) → MazeS

/-- The weighted distance comparison key of a site: squared Euclidean
distance over squared weight, which orders like distance over weight for
positive weights. -/
def distSqWeighted (c : ℚ × ℚ) (s : (ℚ × ℚ) × ℚ × Nat) : ℚ :=
  ((c.1 - s.1.1) ^ 2 + (c.2 - s.1.2) ^ 2) / (s.2.1 * s.2.1)

/-- Modelled from the spec: voronoi::matrix (src/tools/src/voronoi/mod.rs
is not under src/) assigns each room the index of the site minimizing the
weighted distance; with no sites every room keeps the matrix default
value 0. -/
def voronoiAssign (c : ℚ × ℚ) (sites : List ((ℚ × ℚ) × ℚ × Nat)) : Nat :=
  match sites with
  | [] => 0
  | s0 :: rest =>
    (rest.foldl
      (fun best s =>
        if distSqWeighted c s < distSqWeighted c best then s else best) s0).2.2

/-- The Voronoi assignment matrix over the maze's room positions. -/
def voronoiMatrix (mz : MazeS) (sites : List ((ℚ × ℚ) × ℚ × Nat)) : Mat Nat :=
  ⟨mz.rooms.width, mz.rooms.height,
    fun p => voronoiAssign (cellCenter mz.shape p) sites⟩

/-- Methods::initialize from src/tools/src/voronoi/initialize.rs: sample
one site per method, build the assignment matrix and the boundary edges,
run each method restricted to its region intersected with the caller
filter, then open one randomizer-chosen wall per boundary set. -/
def methodsInitialize (methods : List InitMethod) (mz : MazeS)
    (rnd : Nat → ℚ) (choice : Nat × Nat → Nat) (filter : MPos → Bool) :
    Mat Nat × MazeS :=
  let A := voronoiMatrix mz
    (sampleSites (mazeViewbox mz.shape mz.rooms.width mz.rooms.height)
      methods.length rnd)
  let mz1 := methods.enum.foldl
    (fun m ik => ik.2.run m (fun p => filter p && decide (A.cells p = ik.1))) mz
  let mz2 := (boundaryKeys mz.shape A).foldl
    (fun m k =>
      m.setOpen ((boundarySet mz.shape A k).getD (choice k) (MPos.mk 0 0, hexLEFT0))
        true) mz1
  (A, mz2)

/-- A constant assignment matrix yields no boundary entries. -/
theorem boundaryEntries_const (s : Shape) (A : Mat Nat)
    (hA : ∀ p q, A.cells p = A.cells q) : boundaryEntries s A = [] := by
  rw [boundaryEntries, List.flatMap_eq_nil_iff]
  intro p _
  rw [List.filterMap_eq_nil_iff]
  intro wp _
  by_cases hin : A.inside (back s wp).1 = true
  · rw [if_pos hin, if_pos (hA wp.1 (back s wp).1)]
  · rw [if_neg hin]

/-- C6 counterexample: calling the Voronoi initializer with zero
strategies does not fall back to the full-maze clear strategy: on a 2 by 1
hexagonal maze the wall between the two rooms stays closed, while the
claimed fallback (the clear strategy over the whole maze) opens it. -/
theorem voronoi_empty_methods_counterexample :
    (methodsInitialize [] (freshMaze Shape.hex 2 1) (fun _ => 0) (fun _ => 0)
        (fun _ => true)).2.isOpen (⟨0, 0⟩, hexRIGHT0) = false ∧
      (clearInitialize (freshMaze Shape.hex 2 1) (fun _ => true)).isOpen
        (⟨0, 0⟩, hexRIGHT0) = true := by
  constructor
  · decide
  · decide

/-- C6 amended: calling the Voronoi initializer with zero generation
strategies is not an error: it runs no strategy and opens no connector
wall, returning the maze unchanged together with the default-filled
assignment matrix; the fallback to one default full-maze clear strategy
lives in Methods::default, not in initialize. -/
theorem voronoi_empty_methods_amended (mz : MazeS) (rnd : Nat → ℚ)
    (choice : Nat × Nat → Nat) (filter : MPos → Bool) :
    methodsInitialize [] mz rnd choice filter = (voronoiMatrix mz [], mz) := by
  unfold methodsInitialize
  rw [Prod.mk.injEq]
  constructor
  · rfl
  · show (boundaryKeys mz.shape (voronoiMatrix mz [])).foldl _ mz = mz
    rw [show boundaryKeys mz.shape (voronoiMatrix mz []) = [] from ?_]
    · rfl
    · rw [boundaryKeys, boundaryEntries_const mz.shape (voronoiMatrix mz [])
        (fun p q => rfl)]
      rfl

/-- Truncation toward zero: the semantics of Rust's float-to-isize cast. -/
def ratTrunc (q : ℚ) : Int := if 0 ≤ q then ⌊q⌋ else ⌈q⌉

/-- The gradient of a hex room's slanted top edge ((1 + sin 30°)/cos 30°). -/
def hexGRADIENT : ℚ := (1 + 1/2) / qCos30

/-- TOP_HEIGHT for hex rooms (1 + sin 30°). -/
def hexTOP_HEIGHT : ℚ := 1 + 1/2

/-- hex::room_at from the source: approximate row from the vertical
multiplicator, approximate column laterally offset on even rows, then
gradient boundary tests for points belonging to a diagonal neighbour. -/
def hexRoomAt (pos : ℚ × ℚ) : MPos :=
  let approx_row : Int := ⌊pos.2 / hexVM⌋
  let row_odd : Bool := approx_row % 2 == 1
  let approx_col : ℚ :=
    if row_odd then pos.1 / hexHM else pos.1 / hexHM - 1/2
  let rel_y : ℚ := pos.2 - (approx_row : ℚ) * hexVM
  let rel_x : ℚ :=
    if row_odd then pos.1 - ((approx_col - 1/2) * hexHM)
    else pos.1 - (approx_col * hexHM)
  if rel_y < -hexGRADIENT * rel_x + hexTOP_HEIGHT then
    ⟨ratTrunc approx_col - (if row_odd then 0 else 1), approx_row - 1⟩
  else if rel_y < hexGRADIENT * rel_x - hexTOP_HEIGHT then
    ⟨ratTrunc approx_col + (if row_odd then 1 else 0), approx_row - 1⟩
  else
    ⟨ratTrunc approx_col, approx_row⟩

/-- shape::surround from the source: all positions with a horizontal or
vertical distance of d from the centre, as the top and bottom edges (the
bottom filtered away when d = 0) plus the strict interiors of the left
and right edges. -/
def surround (p : MPos) (d : Nat) : List MPos :=
  ((List.range (2 * d + 1)).map
      (fun i => MPos.mk (p.col - (d : Int) + (i : Int)) (p.row - (d : Int)))) ++
    ((List.range (2 * d + 1)).filter (fun _ => decide (d ≠ 0))).map
      (fun i => MPos.mk (p.col - (d : Int) + (i : Int)) (p.row + (d : Int))) ++
    (List.range (2 * d - 1)).map
      (fun i => MPos.mk (p.col - (d : Int)) (p.row - (d : Int) + 1 + (i : Int))) ++
    (List.range (2 * d - 1)).map
      (fun i => MPos.mk (p.col + (d : Int)) (p.row - (d : Int) + 1 + (i : Int)))

/-- The bounds test of rooms_touched_by, in the source's order:
x >= left, y >= top, x <= right, y <= bottom. -/
def inRect (vb : ViewB) (x y : ℚ) : Bool :=
  decide (x ≥ vb.x) && decide (y ≥ vb.y) &&
    decide (x ≤ vb.x + vb.w) && decide (y ≤ vb.y + vb.h)

/-- Modelled from the spec: quad room_at maps a physical position to the
2-unit square room containing it (approximate row and column from the
multiplicators); square rooms need no gradient correction for diagonal
neighbours. -/
def quadRoomAt (pos : ℚ × ℚ) : MPos := ⟨⌊pos.1 / 2⌋, ⌊pos.2 / 2⌋⟩

/-- Modelled from the spec: tri room_at computes the approximate row and
column from the horizontal (cos 30°) and vertical (3/2) multiplicators,
then applies a gradient comparison derived from the triangle's slanted
edge, correcting points that belong to the neighbouring triangle. -/
def triRoomAt (pos : ℚ × ℚ) : MPos :=
  let approx_row : Int := ⌊pos.2 / (3/2 : ℚ)⌋
  let approx_col : Int := ⌊pos.1 / qCos30⌋ - 1
  let rel_x : ℚ := pos.1 - ((approx_col : ℚ) + 1) * qCos30
  let rel_y : ℚ := pos.2 - (approx_row : ℚ) * (3/2)
  if (approx_col + approx_row) % 2 = 0 then
    if rel_y < (3/2) / qCos30 * rel_x - 3/2 then ⟨approx_col + 1, approx_row⟩
    else ⟨approx_col, approx_row⟩
  else if rel_y < -((3/2) / qCos30) * rel_x + 3/2 then
    ⟨approx_col - 1, approx_row⟩
  else ⟨approx_col, approx_row⟩

/-- Shape::room_at: hex is embedded from the source; quad and tri are
modelled from the spec (approximate row/column from the shape's
multiplicators plus a boundary correction). -/
def roomAt : Shape → ℚ × ℚ → MPos
  | .hex, pos => hexRoomAt pos
  | .quad, pos => quadRoomAt pos
  | .tri, pos => triRoomAt pos

/-- The horizontal multiplicator of a shape: the physical width of one
column step. -/
def colMul : Shape → ℚ
  | .hex => hexHM
  | .quad => 2
  | .tri => qCos30

/-- The vertical multiplicator of a shape: the physical height of one row
step. -/
def rowMul : Shape → ℚ
  | .hex => hexVM
  | .quad => 2
  | .tri => 3/2

/-- The ring membership test of rooms_touched_by: the room is kept when
its centre or any of its wall corner points lies in the rectangle. -/
def touches (s : Shape) (vb : ViewB) (p : MPos) : Bool :=
  inRect vb (cellCenter s p).1 (cellCenter s p).2 ||
    (cornerPoints s p).any (fun c => inRect vb c.1 c.2)

/-- The ring-growing loop of Maze::rooms_touched_by, with explicit fuel:
extend the result with the touching rooms of the current ring and stop at
the first ring that contributes nothing. -/
def roomsTouchedByLoop (s : Shape) (vb : ViewB) (start : MPos) :
    Nat → List MPos → Nat → Option (List MPos)
  | 0, _, _ => none
  | fuel + 1, acc, d =>
    if (acc ++ (surround start d).filter (touches s vb)).length = acc.length then
      some (acc ++ (surround start d).filter (touches s vb))
    else
      roomsTouchedByLoop s vb start fuel
        (acc ++ (surround start d).filter (touches s vb)) (d + 1)

/-- Maze::rooms_touched_by: grow rings around the room under the view
box's centre. -/
def roomsTouchedBy (s : Shape) (fuel : Nat) (vb : ViewB) :
    Option (List MPos) :=
  roomsTouchedByLoop s vb (roomAt s (vb.x + 1/2 * vb.w, vb.y + 1/2 * vb.h))
    fuel [] 0

/-- Every ring position has an extreme row or an extreme column. -/
theorem mem_surround (p : MPos) (d : Nat) (q : MPos) (h : q ∈ surround p d) :
    q.row = p.row - (d : Int) ∨ q.row = p.row + (d : Int) ∨
      q.col = p.col - (d : Int) ∨ q.col = p.col + (d : Int) := by
  rw [surround] at h
  rcases List.mem_append.mp h with h1 | h4
  · rcases List.mem_append.mp h1 with h2 | h3
    · rcases List.mem_append.mp h2 with htop | hbot
      · obtain ⟨i, _, rfl⟩ := List.mem_map.mp htop
        exact Or.inl rfl
      · obtain ⟨i, _, rfl⟩ := List.mem_map.mp hbot
        exact Or.inr (Or.inl rfl)
    · obtain ⟨i, _, rfl⟩ := List.mem_map.mp h3
      exact Or.inr (Or.inr (Or.inl rfl))
  · obtain ⟨i, _, rfl⟩ := List.mem_map.mp h4
    exact Or.inr (Or.inr (Or.inr rfl))

/-- The span-start offsets of every shape's walls are bounded by one
unit. -/
theorem wallSpan0_bounds (s : Shape) (q : MPos) (w : Wall)
    (hw : w ∈ wallsAt s q) :
    -1 ≤ (wallSpan0 s w.index).1 ∧ (wallSpan0 s w.index).1 ≤ 1 ∧
      -1 ≤ (wallSpan0 s w.index).2 ∧ (wallSpan0 s w.index).2 ≤ 1 := by
  cases s
  · have e0 : wallSpan0 .tri 0 = ((0 : ℚ), (1 : ℚ)) := rfl
    have e1 : wallSpan0 .tri 1 = (qCos30, 1/2) := rfl
    have e2 : wallSpan0 .tri 2 = (-qCos30, 1/2) := rfl
    have e3 : wallSpan0 .tri 3 = (qCos30, -(1/2)) := rfl
    have e4 : wallSpan0 .tri 4 = ((0 : ℚ), (-1 : ℚ)) := rfl
    have e5 : wallSpan0 .tri 5 = (-qCos30, -(1/2)) := rfl
    have hidx : ∀ u ∈ triALL0 ++ triALL1, u.index < 6 := by decide
    have h2 : w ∈ (if (q.col + q.row) % 2 = 1 then triALL1 else triALL0) := hw
    have hlt : w.index < 6 := by
      by_cases hp : (q.col + q.row) % 2 = 1
      · rw [if_pos hp] at h2
        exact hidx w (List.mem_append.mpr (Or.inr h2))
      · rw [if_neg hp] at h2
        exact hidx w (List.mem_append.mpr (Or.inl h2))
    generalize hgen : w.index = i at hlt ⊢
    interval_cases i <;>
      simp only [e0, e1, e2, e3, e4, e5] <;>
      refine ⟨?_, ?_, ?_, ?_⟩ <;>
      norm_num [qCos30]
  · have e0 : wallSpan0 .quad 0 = (-qCos45, qCos45) := rfl
    have e1 : wallSpan0 .quad 1 = (-qCos45, -qCos45) := rfl
    have e2 : wallSpan0 .quad 2 = (qCos45, -qCos45) := rfl
    have e3 : wallSpan0 .quad 3 = (qCos45, qCos45) := rfl
    have hidx : ∀ u ∈ quadALL, u.index < 4 := by decide
    have hlt : w.index < 4 := hidx w hw
    generalize hgen : w.index = i at hlt ⊢
    interval_cases i <;>
      simp only [e0, e1, e2, e3] <;>
      refine ⟨?_, ?_, ?_, ?_⟩ <;>
      norm_num [qCos45]
  · have e0 : wallSpan0 .hex 0 = (-qCos30, 1/2) := rfl
    have e1 : wallSpan0 .hex 1 = (qCos30, -(1/2)) := rfl
    have e2 : wallSpan0 .hex 2 = (-qCos30, 1/2) := rfl
    have e3 : wallSpan0 .hex 3 = (qCos30, -(1/2)) := rfl
    have e4 : wallSpan0 .hex 4 = (-qCos30, -(1/2)) := rfl
    have e5 : wallSpan0 .hex 5 = (qCos30, 1/2) := rfl
    have e6 : wallSpan0 .hex 6 = (-qCos30, -(1/2)) := rfl
    have e7 : wallSpan0 .hex 7 = (qCos30, 1/2) := rfl
    have e8 : wallSpan0 .hex 8 = ((0 : ℚ), (-1 : ℚ)) := rfl
    have e9 : wallSpan0 .hex 9 = ((0 : ℚ), (1 : ℚ)) := rfl
    have e10 : wallSpan0 .hex 10 = ((0 : ℚ), (-1 : ℚ)) := rfl
    have e11 : wallSpan0 .hex 11 = ((0 : ℚ), (1 : ℚ)) := rfl
    have hidx : ∀ u ∈ hexALL0 ++ hexALL1, u.index < 12 := by decide
    have h2 : w ∈ (if q.row % 2 = 1 then hexALL1 else hexALL0) := hw
    have hlt : w.index < 12 := by
      by_cases hp : q.row % 2 = 1
      · rw [if_pos hp] at h2
        exact hidx w (List.mem_append.mpr (Or.inr h2))
      · rw [if_neg hp] at h2
        exact hidx w (List.mem_append.mpr (Or.inl h2))
    generalize hgen : w.index = i at hlt ⊢
    interval_cases i <;>
      simp only [e0, e1, e2, e3, e4, e5, e6, e7, e8, e9, e10, e11] <;>
      refine ⟨?_, ?_, ?_, ?_⟩ <;>
      norm_num [qCos30]

/-- For every shape, the centre of a room lies within two units above the
room's multiplicator-scaled grid coordinates. -/
theorem cellCenter_bounds (s : Shape) (q : MPos) :
    colMul s * (q.col : ℚ) ≤ (cellCenter s q).1 ∧
      (cellCenter s q).1 ≤ colMul s * (q.col : ℚ) + 2 ∧
      rowMul s * (q.row : ℚ) ≤ (cellCenter s q).2 ∧
      (cellCenter s q).2 ≤ rowMul s * (q.row : ℚ) + 2 := by
  cases s
  · simp only [cellCenter, colMul, rowMul, qCos30]
    refine ⟨by linarith, by linarith, by linarith, by linarith⟩
  · simp only [cellCenter, colMul, rowMul]
    refine ⟨by linarith, by linarith, by linarith, by linarith⟩
  · simp only [cellCenter, hexCenter, colMul, rowMul, hexHM, hexVM, qCos30]
    by_cases hp : q.row % 2 = 1
    · rw [if_pos hp]
      refine ⟨by linarith, by linarith, by linarith, by linarith⟩
    · rw [if_neg hp]
      refine ⟨by linarith, by linarith, by linarith, by linarith⟩

/-- A candidate point of a ring room with an extreme row or column lies
outside the view box once the ring distance exceeds the absolute sizes of
the window and the starting room, for every shape. -/
theorem test_point_escapes (s : Shape) (vb : ViewB) (start q : MPos)
    (d0 : Nat)
    (hd0 : 4 * (|((start.col : ℚ))| + |((start.row : ℚ))| + |vb.x| + |vb.y| +
      |vb.w| + |vb.h|) + 20 ≤ (d0 : ℚ))
    (hmem : q.row = start.row - (d0 : Int) ∨ q.row = start.row + (d0 : Int) ∨
      q.col = start.col - (d0 : Int) ∨ q.col = start.col + (d0 : Int))
    (X Y : ℚ)
    (hX1 : colMul s * (q.col : ℚ) - 3 ≤ X)
    (hX2 : X ≤ colMul s * (q.col : ℚ) + 3)
    (hY1 : rowMul s * (q.row : ℚ) - 3 ≤ Y)
    (hY2 : Y ≤ rowMul s * (q.row : ℚ) + 3) :
    inRect vb X Y = false := by
  have habs1 := le_abs_self ((start.col : ℚ))
  have habs2 := neg_abs_le ((start.col : ℚ))
  have habs3 := le_abs_self ((start.row : ℚ))
  have habs4 := neg_abs_le ((start.row : ℚ))
  have habs5 := le_abs_self vb.x
  have habs6 := neg_abs_le vb.x
  have habs7 := le_abs_self vb.y
  have habs8 := neg_abs_le vb.y
  have habs9 := le_abs_self vb.w
  have habs10 := neg_abs_le vb.w
  have habs11 := le_abs_self vb.h
  have habs12 := neg_abs_le vb.h
  have hnn1 := abs_nonneg ((start.col : ℚ))
  have hnn2 := abs_nonneg ((start.row : ℚ))
  have hnn3 := abs_nonneg vb.x
  have hnn4 := abs_nonneg vb.y
  have hnn5 := abs_nonneg vb.w
  have hnn6 := abs_nonneg vb.h
  rcases hmem with h | h | h | h
  · have hcast : (q.row : ℚ) = (start.row : ℚ) - (d0 : ℚ) := by
      rw [h]; push_cast; ring
    have hY : Y < vb.y := by
      rw [hcast] at hY2
      cases s <;> simp only [rowMul, hexVM] at hY2 <;> linarith
    have hdec : (decide (Y ≥ vb.y)) = false := decide_eq_false (not_le.mpr hY)
    unfold inRect
    rw [hdec]
    simp
  · have hcast : (q.row : ℚ) = (start.row : ℚ) + (d0 : ℚ) := by
      rw [h]; push_cast; ring
    have hY : vb.y + vb.h < Y := by
      rw [hcast] at hY1
      cases s <;> simp only [rowMul, hexVM] at hY1 <;> linarith
    have hdec : (decide (Y ≤ vb.y + vb.h)) = false :=
      decide_eq_false (not_le.mpr hY)
    unfold inRect
    rw [hdec]
    simp
  · have hcast : (q.col : ℚ) = (start.col : ℚ) - (d0 : ℚ) := by
      rw [h]; push_cast; ring
    have hX : X < vb.x := by
      rw [hcast] at hX2
      cases s <;> simp only [colMul, hexHM, qCos30] at hX2 <;> linarith
    have hdec : (decide (X ≥ vb.x)) = false := decide_eq_false (not_le.mpr hX)
    unfold inRect
    rw [hdec]
    simp
  · have hcast : (q.col : ℚ) = (start.col : ℚ) + (d0 : ℚ) := by
      rw [h]; push_cast; ring
    have hX : vb.x + vb.w < X := by
      rw [hcast] at hX1
      cases s <;> simp only [colMul, hexHM, qCos30] at hX1 <;> linarith
    have hdec : (decide (X ≤ vb.x + vb.w)) = false :=
      decide_eq_false (not_le.mpr hX)
    unfold inRect
    rw [hdec]
    simp

/-- Far enough from the starting room there is a ring none of whose rooms
touches the view box. -/
theorem ring_escape (s : Shape) (vb : ViewB) (start : MPos) :
    ∃ d0 : Nat, (surround start d0).filter (touches s vb) = [] := by
  refine ⟨⌈(4 * (|((start.col : ℚ))| + |((start.row : ℚ))| + |vb.x| + |vb.y| +
    |vb.w| + |vb.h|) + 20 : ℚ)⌉₊, ?_⟩
  rw [List.filter_eq_nil_iff]
  intro q hq
  have hmem := mem_surround start _ q hq
  intro ht
  unfold touches at ht
  rw [Bool.or_eq_true] at ht
  have hb := cellCenter_bounds s q
  rcases ht with hc | ha
  · have hfalse : inRect vb (cellCenter s q).1 (cellCenter s q).2 = false := by
      refine test_point_escapes s vb start q _ (Nat.le_ceil _) hmem _ _ ?_ ?_ ?_ ?_
      · linarith [hb.1]
      · linarith [hb.2.1]
      · linarith [hb.2.2.1]
      · linarith [hb.2.2.2]
    rw [hfalse] at hc
    exact Bool.false_ne_true hc
  · rw [List.any_eq_true] at ha
    obtain ⟨c, hcm, hcin⟩ := ha
    rw [cornerPoints, List.mem_map] at hcm
    obtain ⟨w, hw, rfl⟩ := hcm
    have hsp := wallSpan0_bounds s q w hw
    have hfalse : inRect vb ((cellCenter s q).1 + (wallSpan0 s w.index).1)
        ((cellCenter s q).2 + (wallSpan0 s w.index).2) = false := by
      refine test_point_escapes s vb start q _ (Nat.le_ceil _) hmem _ _ ?_ ?_ ?_ ?_
      · linarith [hb.1, hsp.1]
      · linarith [hb.2.1, hsp.2.1]
      · linarith [hb.2.2.1, hsp.2.2.1]
      · linarith [hb.2.2.2, hsp.2.2.2]
    rw [hfalse] at hcin
    exact Bool.false_ne_true hcin

/-- Once a ring contributes no touching room, the loop stops: fuel one
past the quiet ring suffices. -/
theorem roomsTouchedByLoop_isSome (s : Shape) (vb : ViewB) (start : MPos) :
    ∀ (n d : Nat) (acc : List MPos),
      (surround start (d + n)).filter (touches s vb) = [] →
      (roomsTouchedByLoop s vb start (n + 1) acc d).isSome = true := by
  intro n
  induction n with
  | zero =>
    intro d acc h
    rw [Nat.add_zero] at h
    show (if (acc ++ (surround start d).filter (touches s vb)).length = acc.length
        then some (acc ++ (surround start d).filter (touches s vb))
        else roomsTouchedByLoop s vb start 0
          (acc ++ (surround start d).filter (touches s vb)) (d + 1)).isSome = true
    rw [h, List.append_nil, if_pos rfl]
    rfl
  | succ n ih =>
    intro d acc h
    show (if (acc ++ (surround start d).filter (touches s vb)).length = acc.length
        then some (acc ++ (surround start d).filter (touches s vb))
        else roomsTouchedByLoop s vb start (n + 1)
          (acc ++ (surround start d).filter (touches s vb)) (d + 1)).isSome = true
    by_cases hcon : (surround start d).filter (touches s vb) = []
    · rw [hcon, List.append_nil, if_pos rfl]
      rfl
    · have hlen : (acc ++ (surround start d).filter (touches s vb)).length ≠ acc.length := by
        rw [List.length_append]
        have hpos : 0 < ((surround start d).filter (touches s vb)).length :=
          List.length_pos.mpr hcon
        omega
      rw [if_neg hlen]
      apply ih
      rw [show d + 1 + n = d + (n + 1) from by omega]
      exact h

/-- C8: rooms_touched_by terminates for every shape and view box.  The
ring-growing loop, with enough fuel, reaches a ring that contributes no
new room (every room of a far enough ring has an extreme row or column,
so its centre and all its corner points lie outside the window), and
stops there. -/
theorem rooms_touched_by_terminates (s : Shape) (vb : ViewB) :
    ∃ fuel, (roomsTouchedBy s fuel vb).isSome = true := by
  obtain ⟨d0, hd0⟩ :=
    ring_escape s vb (roomAt s (vb.x + 1/2 * vb.w, vb.y + 1/2 * vb.h))
  refine ⟨d0 + 1, ?_⟩
  rw [roomsTouchedBy]
  apply roomsTouchedByLoop_isSome
  rw [Nat.zero_add]
  exact hd0

end Labyru
